import Mathlib

/-!
Shallow embedding of the dilib pixel-processing core (orchestra module) in Lean 4.

Conventions used throughout this development:
* JavaScript numbers appearing in integer positions are modelled as `ℕ`/`ℤ`;
  all 32-bit wrap-around semantics (`Math.imul`, `>>> 0`, `^`, `|`) are made
  explicit through `% 4294967296`.  JavaScript doubles are exact on the integer
  ranges the code touches (all intermediate integers stay far below 2^53).
* Fractional arithmetic (`/ 4294967296`, colour scaling, convolution weights)
  is modelled in `ℚ` where the source computes with exactly representable
  dyadic values, and in `ℝ` for the transcendental Gaussian weights.
* `Uint8Array`/`Float32Array` storage is modelled as a total function
  `ℕ → ℚ`; the source guarantees every written slot holds a byte value
  (respectively a finite float), which appears here as explicit
  well-formedness hypotheses where a claim needs it.
* Functions of the source that mutate an array in place are embedded as
  functions returning the updated value; each embedding's doc comment names
  the source function it denotes.
-/

namespace Dilib

/-! ### JavaScript numeric primitives -/

/-- Word size of the 32-bit wrap-around arithmetic used by the source
(`>>> 0`, `Math.imul`). -/
def U32 : ℕ := 4294967296

/-- Reduction of an integer to its unsigned 32-bit residue, the effect of the
JavaScript `>>> 0` coercion (and, up to sign presentation, of `ToInt32`). -/
def mod32 (n : ℤ) : ℕ := (n % (U32 : ℤ)).toNat

/-- Model of `Math.imul`: 32-bit product.  The source only ever consumes the
result modulo 2^32 (through further bit operations or `>>> 0`), so the
unsigned residue is the faithful denotation. -/
def imul32 (a b : ℕ) : ℕ := a * b % U32

/-- Model of JavaScript `Math.round` (round half toward positive infinity). -/
def jsRound {K : Type} [LinearOrderedField K] [FloorRing K] (v : K) : ℤ :=
  ⌊v + 1 / 2⌋

/-- Model of the source helper `clamp(value, min, max)` specialised to the
integer coordinates it is applied to. -/
def clampI (v lo hi : ℤ) : ℤ := max lo (min hi v)

/-- Model of the source helper `clampByte(value) = Math.round(clamp(value, 0, 255))`. -/
def clampByte {K : Type} [LinearOrderedField K] [FloorRing K] (v : K) : ℕ :=
  (jsRound (max 0 (min 255 v))).toNat

/-- Model of the source helper `toByte`: a value `≤ 1` is interpreted as a
normalised 0–1 intensity and scaled by 255 before rounding and clamping to
the byte range.  The source's NaN/∞ guard has no counterpart in `ℚ`. -/
def toByte (v : ℚ) : ℕ :=
  (max 0 (min 255 (jsRound (if v ≤ 1 then v * 255 else v)))).toNat

/-- Model of the source helper `toFloat`: values above 1 are interpreted as
0–255 intensities and divided by 255; everything is clamped to `[0, 1]`.
The source's NaN/∞ guard has no counterpart in `ℚ`. -/
def toFloat (v : ℚ) : ℚ :=
  if 1 < v then max 0 (min 1 (v / 255)) else max 0 (min 1 v)

/-! ### hash2D (nodes.ts)

`hash2D(x, y, seed)` mixes its three integer arguments with `Math.imul`
multiplications, xor-shifts and a final division by `4294967295`.  Every
JavaScript bit operation coerces its operand to 32 bits, so only residues
modulo 2^32 matter; the final `>>> 0` makes the mixed word unsigned. -/

/-- Mixed 32-bit word computed by `hash2D` before the final division.  `n0` is
the 32-bit residue of
`Math.imul(x, 374761393) + Math.imul(y, 668265263) + Math.imul(seed, 144664877)`
(the three signed products and their sum agree with the plain integer products
modulo 2^32, and the sum of three int32 values is exact as a double). -/
def hash2Dword (x y seed : ℤ) : ℕ :=
  let n0 : ℕ := mod32 (x * 374761393 + y * 668265263 + seed * 144664877)
  let n1 : ℕ := (n0 ^^^ (n0 >>> 13)) % U32
  let n2 : ℕ := imul32 n1 1274126177
  (n2 ^^^ (n2 >>> 16)) % U32

/-- Model of `hash2D` from nodes.ts: the mixed unsigned 32-bit word divided by
`4294967295` (note: `2^32 - 1`, not `2^32`). -/
def hash2D (x y seed : ℤ) : ℚ := (hash2Dword x y seed : ℚ) / 4294967295

theorem hash2Dword_lt (x y seed : ℤ) : hash2Dword x y seed < U32 := by
  unfold hash2Dword
  exact Nat.mod_lt _ (by norm_num [U32])

/-- Claim C4: `hash2D` is a pure function of `(ix, iy, seed)` — repeated
evaluation with identical arguments yields the identical value (in this pure
embedding, definitionally) — and every returned value lies in the closed
interval `[0, 1]`.  The claim's half-open upper bound `< 1` is refuted by
`Dilib.hash2D_attains_one`: the divisor is `4294967295 = 2^32 - 1`, which the
mixed 32-bit word can attain. -/
theorem hash2D_pure_and_range (x y seed : ℤ) :
    hash2D x y seed = hash2D x y seed ∧
    0 ≤ hash2D x y seed ∧ hash2D x y seed ≤ 1 := by
  refine ⟨rfl, ?_, ?_⟩
  · unfold hash2D
    positivity
  · unfold hash2D
    rw [div_le_one (by norm_num)]
    have h4 : hash2Dword x y seed ≤ 4294967295 := by
      have h3 := hash2Dword_lt x y seed
      have : U32 = 4294967296 := rfl
      omega
    exact_mod_cast h4

/-- Counterexample for claim C4: at the concrete input
`(ix, iy, seed) = (1034621878, 0, 0)` the mixed 32-bit word is `2^32 - 1`, so
`hash2D` returns exactly `1`, contradicting the claimed half-open range
`[0, 1)`. -/
theorem hash2D_attains_one :
    hash2D 1034621878 0 0 = 1 ∧ ¬ hash2D 1034621878 0 0 < 1 := by
  have h : hash2Dword 1034621878 0 0 = 4294967295 := by decide
  have h1 : hash2D 1034621878 0 0 = 1 := by
    unfold hash2D
    rw [h]
    norm_num
  exact ⟨h1, by rw [h1]; exact lt_irrefl 1⟩

/-! ### Pixel buffers (image.ts)

`ImageBuffer` owns a `Uint8Array` (byte formats) or `Float32Array`
(`rgba32f`); both are modelled as a total function `ℕ → ℚ`.  A pixel decoded
by `getPixel` is always in 0–255 RGBA space; `setPixel` encodes through
`toByte`/`toFloat` per format.  JavaScript `Pixel`/`PixelLike` objects carry
plain numbers, so the exchange structure `Px` carries `ℚ` channels; the
optional alpha (`pixel.a ?? 255`) is made explicit: call sites that omit it
pass `255`. -/

/-- The four storage formats of `ImageBuffer`. -/
inductive PixelFormat
  | rgba8
  | rgb8
  | gray8
  | rgba32f
deriving DecidableEq

/-- Channel count per format (`FORMAT_CHANNELS` in image.ts). -/
def PixelFormat.channelCount : PixelFormat → ℕ
  | .rgba8 => 4
  | .rgb8 => 3
  | .gray8 => 1
  | .rgba32f => 4

/-- Exchange pixel value `{r, g, b, a}` of plain JavaScript numbers. -/
structure Px where
  r : ℚ
  g : ℚ
  b : ℚ
  a : ℚ
deriving DecidableEq

/-- In-memory pixel buffer: dimensions, format, and raw storage (array slot
`i` of the `Uint8Array`/`Float32Array`, out-of-range slots read as the zeroed
allocation). -/
structure ImageBuffer where
  width : ℕ
  height : ℕ
  format : PixelFormat
  data : ℕ → ℚ

/-- Per-format channel encoding performed by `ImageBuffer.setPixel` when
writing a pixel: slot `index + ch` receives `encodePx format p ch`.  Matches
the four format branches of `setPixel` (gray8 stores the rounded channel
mean; byte formats store `toByte` of each channel; `rgba32f` stores
`toFloat`). -/
def encodePx (format : PixelFormat) (p : Px) (ch : ℕ) : ℚ :=
  match format with
  | .gray8 => (toByte ((p.r + p.g + p.b) / 3) : ℚ)
  | .rgb8 =>
    if ch = 0 then (toByte p.r : ℚ)
    else if ch = 1 then (toByte p.g : ℚ)
    else (toByte p.b : ℚ)
  | .rgba8 =>
    if ch = 0 then (toByte p.r : ℚ)
    else if ch = 1 then (toByte p.g : ℚ)
    else if ch = 2 then (toByte p.b : ℚ)
    else (toByte p.a : ℚ)
  | .rgba32f =>
    if ch = 0 then toFloat p.r
    else if ch = 1 then toFloat p.g
    else if ch = 2 then toFloat p.b
    else toFloat p.a

/-- Model of `ImageBuffer.getPixel` (in-bounds reads; the source throws for
out-of-bounds coordinates, and every theorem below restricts to in-bounds
coordinates). -/
def ImageBuffer.getPixel (img : ImageBuffer) (x y : ℕ) : Px :=
  let index := (y * img.width + x) * img.format.channelCount
  match img.format with
  | .gray8 =>
    let gray := img.data index
    ⟨gray, gray, gray, 255⟩
  | .rgb8 => ⟨img.data index, img.data (index + 1), img.data (index + 2), 255⟩
  | .rgba32f =>
    ⟨(toByte (img.data index) : ℚ), (toByte (img.data (index + 1)) : ℚ),
      (toByte (img.data (index + 2)) : ℚ), (toByte (img.data (index + 3)) : ℚ)⟩
  | .rgba8 =>
    ⟨img.data index, img.data (index + 1), img.data (index + 2), img.data (index + 3)⟩

/-- Model of `ImageBuffer.setPixel` (in-bounds writes; the source mutates its
storage in place, embedded here as the updated buffer).  Exactly the
`channelCount` slots of pixel `(x, y)` are overwritten with the per-format
encoding. -/
def ImageBuffer.setPixel (img : ImageBuffer) (x y : ℕ) (p : Px) : ImageBuffer :=
  let index := (y * img.width + x) * img.format.channelCount
  { img with
    data := fun i =>
      if index ≤ i ∧ i < index + img.format.channelCount then encodePx img.format p (i - index)
      else img.data i }

/-! ### Byte round-trip lemmas -/

theorem jsRound_intCast {K : Type} [LinearOrderedField K] [FloorRing K] (n : ℤ) :
    jsRound ((n : K)) = n := by
  unfold jsRound
  rw [Int.floor_eq_iff]
  constructor
  · linarith [show (0 : K) < 1 / 2 by norm_num]
  · linarith [show (1 / 2 : K) < 1 by norm_num]

/-- On integer byte values other than 1, `toByte` is the identity. -/
theorem toByte_natCast (n : ℕ) (h255 : n ≤ 255) (h1 : n ≠ 1) : toByte ((n : ℚ)) = n := by
  rcases Nat.eq_zero_or_pos n with h0 | hpos
  · subst h0
    with_unfolding_all decide
  · have h2 : 2 ≤ n := by omega
    have hn1 : ¬ ((n : ℚ) ≤ 1) := by
      rw [not_le]
      exact_mod_cast h2
    unfold toByte
    rw [if_neg hn1]
    have hr : jsRound ((n : ℚ)) = (n : ℤ) := by
      have := jsRound_intCast (K := ℚ) (n : ℤ)
      rwa [Int.cast_natCast] at this
    rw [hr]
    omega

/-- On integer byte values, `toFloat` then `toByte` recovers the byte, except
at the ambiguous value 1. -/
theorem toByte_toFloat_natCast (n : ℕ) (h255 : n ≤ 255) (h1 : n ≠ 1) :
    toByte (toFloat ((n : ℚ))) = n := by
  rcases Nat.eq_zero_or_pos n with h0 | hpos
  · subst h0
    with_unfolding_all decide
  · have h2 : 2 ≤ n := by omega
    have hgt : (1 : ℚ) < (n : ℚ) := by exact_mod_cast h2
    have hdiv : toFloat ((n : ℚ)) = (n : ℚ) / 255 := by
      unfold toFloat
      rw [if_pos hgt]
      have hle : (n : ℚ) / 255 ≤ 1 := by
        rw [div_le_one (by norm_num)]
        exact_mod_cast h255
      have hnn : (0 : ℚ) ≤ (n : ℚ) / 255 := by positivity
      rw [min_eq_right hle, max_eq_right hnn]
    rw [hdiv]
    unfold toByte
    have hle1 : (n : ℚ) / 255 ≤ 1 := by
      rw [div_le_one (by norm_num)]
      exact_mod_cast h255
    rw [if_pos hle1]
    have hmul : (n : ℚ) / 255 * 255 = (n : ℚ) := by
      field_simp
    rw [hmul]
    have hr : jsRound ((n : ℚ)) = (n : ℤ) := by
      have := jsRound_intCast (K := ℚ) (n : ℤ)
      rwa [Int.cast_natCast] at this
    rw [hr]
    omega

/-! ### Claim C1: set/get round trip -/

/-- A channel value that is a whole byte other than the ambiguous value 1
(which `toByte` reinterprets as a normalised 0–1 intensity). -/
def OkChan (q : ℚ) : Prop := ∃ n : ℕ, q = (n : ℚ) ∧ n ≤ 255 ∧ n ≠ 1

/-- All four channels are unambiguous whole bytes. -/
def OkPx (p : Px) : Prop := OkChan p.r ∧ OkChan p.g ∧ OkChan p.b ∧ OkChan p.a

theorem setPixel_data_at (img : ImageBuffer) (x y : ℕ) (p : Px) (k : ℕ)
    (hk : k < img.format.channelCount) :
    (img.setPixel x y p).data ((y * img.width + x) * img.format.channelCount + k) =
      encodePx img.format p k := by
  unfold ImageBuffer.setPixel
  simp only
  rw [if_pos ⟨Nat.le_add_right _ _, by omega⟩]
  congr 1
  omega

/-- Claim C1 (amended): for in-bounds `(x, y)` and a pixel whose channels are
whole bytes other than the ambiguous value 1, `setPixel` then `getPixel`
returns the pixel exactly on `rgba8`, returns it with alpha forced to 255 on
`rgb8`, and returns every channel within ±1 on `rgba32f` (the rational model
of the float path is in fact exact).  The exclusion of channel value 1 is
forced by `Dilib.setPixel_getPixel_not_identity`: `toByte` treats the value 1
as a normalised intensity and stores 255. -/
theorem setPixel_getPixel_roundtrip (img : ImageBuffer) (x y : ℕ) (p : Px)
    (hx : x < img.width) (hy : y < img.height) (hp : OkPx p) :
    (img.format = PixelFormat.rgba8 → (img.setPixel x y p).getPixel x y = p) ∧
    (img.format = PixelFormat.rgb8 →
      (img.setPixel x y p).getPixel x y = ⟨p.r, p.g, p.b, 255⟩) ∧
    (img.format = PixelFormat.rgba32f →
      |((img.setPixel x y p).getPixel x y).r - p.r| ≤ 1 ∧
      |((img.setPixel x y p).getPixel x y).g - p.g| ≤ 1 ∧
      |((img.setPixel x y p).getPixel x y).b - p.b| ≤ 1 ∧
      |((img.setPixel x y p).getPixel x y).a - p.a| ≤ 1) := by
  obtain ⟨⟨nr, hr, hr255, hr1⟩, ⟨ng, hg, hg255, hg1⟩, ⟨nb, hb, hb255, hb1⟩,
    ⟨na, ha, ha255, ha1⟩⟩ := hp
  have hw : (img.setPixel x y p).width = img.width := rfl
  have hf : (img.setPixel x y p).format = img.format := rfl
  refine ⟨?_, ?_, ?_⟩
  · intro hfmt
    have h0 := setPixel_data_at img x y p 0 (by rw [hfmt]; norm_num [PixelFormat.channelCount])
    have h1 := setPixel_data_at img x y p 1 (by rw [hfmt]; norm_num [PixelFormat.channelCount])
    have h2 := setPixel_data_at img x y p 2 (by rw [hfmt]; norm_num [PixelFormat.channelCount])
    have h3 := setPixel_data_at img x y p 3 (by rw [hfmt]; norm_num [PixelFormat.channelCount])
    unfold ImageBuffer.getPixel
    rw [hw, hf, hfmt]
    rw [hfmt] at h0 h1 h2 h3
    simp only [PixelFormat.channelCount] at h0 h1 h2 h3 ⊢
    rw [Nat.add_zero] at h0
    rw [h0, h1, h2, h3]
    simp only [encodePx]
    norm_num
    rw [hr, hg, hb, ha, toByte_natCast nr hr255 hr1, toByte_natCast ng hg255 hg1,
      toByte_natCast nb hb255 hb1, toByte_natCast na ha255 ha1]
    rw [← hr, ← hg, ← hb, ← ha]
  · intro hfmt
    have h0 := setPixel_data_at img x y p 0 (by rw [hfmt]; norm_num [PixelFormat.channelCount])
    have h1 := setPixel_data_at img x y p 1 (by rw [hfmt]; norm_num [PixelFormat.channelCount])
    have h2 := setPixel_data_at img x y p 2 (by rw [hfmt]; norm_num [PixelFormat.channelCount])
    unfold ImageBuffer.getPixel
    rw [hw, hf, hfmt]
    rw [hfmt] at h0 h1 h2
    simp only [PixelFormat.channelCount] at h0 h1 h2 ⊢
    rw [Nat.add_zero] at h0
    rw [h0, h1, h2]
    simp only [encodePx]
    norm_num
    rw [hr, hg, hb, toByte_natCast nr hr255 hr1, toByte_natCast ng hg255 hg1,
      toByte_natCast nb hb255 hb1]
    exact ⟨rfl, rfl, rfl⟩
  · intro hfmt
    have h0 := setPixel_data_at img x y p 0 (by rw [hfmt]; norm_num [PixelFormat.channelCount])
    have h1 := setPixel_data_at img x y p 1 (by rw [hfmt]; norm_num [PixelFormat.channelCount])
    have h2 := setPixel_data_at img x y p 2 (by rw [hfmt]; norm_num [PixelFormat.channelCount])
    have h3 := setPixel_data_at img x y p 3 (by rw [hfmt]; norm_num [PixelFormat.channelCount])
    unfold ImageBuffer.getPixel
    rw [hw, hf, hfmt]
    rw [hfmt] at h0 h1 h2 h3
    simp only [PixelFormat.channelCount] at h0 h1 h2 h3 ⊢
    rw [Nat.add_zero] at h0
    rw [h0, h1, h2, h3]
    simp only [encodePx]
    norm_num
    rw [hr, hg, hb, ha]
    rw [toByte_toFloat_natCast nr hr255 hr1, toByte_toFloat_natCast ng hg255 hg1,
      toByte_toFloat_natCast nb hb255 hb1, toByte_toFloat_natCast na ha255 ha1]
    norm_num

/-- Concrete 1×1 zeroed rgba8 buffer. -/
def zeroRgba8OneByOne : ImageBuffer := ⟨1, 1, PixelFormat.rgba8, fun _ => 0⟩

/-- Counterexample for claim C1: on an rgba8 buffer, writing the pixel
`{r := 1, g := 0, b := 0, a := 255}` (integer channels in 0–255) and reading
it back does not return the pixel — `toByte` stores 255 for the channel value
1, so the round trip is not the identity. -/
theorem setPixel_getPixel_not_identity :
    (zeroRgba8OneByOne.setPixel 0 0 ⟨1, 0, 0, 255⟩).getPixel 0 0 ≠ (⟨1, 0, 0, 255⟩ : Px) := by
  intro h
  have hr : ((zeroRgba8OneByOne.setPixel 0 0 ⟨1, 0, 0, 255⟩).getPixel 0 0).r = (255 : ℚ) := by
    with_unfolding_all decide
  rw [h] at hr
  norm_num at hr

/-- Witness for `Dilib.setPixel_getPixel_roundtrip` at a concrete input: a
1×1 rgba8 buffer and the pixel `{77, 0, 255, 254}`. -/
theorem setPixel_getPixel_roundtrip_witness :
    (zeroRgba8OneByOne.setPixel 0 0 ⟨77, 0, 255, 254⟩).getPixel 0 0 = (⟨77, 0, 255, 254⟩ : Px) :=
  (setPixel_getPixel_roundtrip zeroRgba8OneByOne 0 0 ⟨77, 0, 255, 254⟩
    (by norm_num [zeroRgba8OneByOne]) (by norm_num [zeroRgba8OneByOne])
    ⟨⟨77, by norm_num, by norm_num, by norm_num⟩, ⟨0, by norm_num, by norm_num, by norm_num⟩,
      ⟨255, by norm_num, by norm_num, by norm_num⟩,
      ⟨254, by norm_num, by norm_num, by norm_num⟩⟩).1 rfl

/-! ### Node state merging (nodes.ts / pipeline.ts)

`NodeState` carries two string-keyed maps.  A JavaScript plain object used as
a map is modelled as `String → Option _`; `mergeNodeState` builds a fresh
object by spreading `state`'s entries and then `result`'s entries
(`result.images ?? {}` — an absent override map is the constantly-`none`
function), so result entries win and all other keys keep the snapshot's
entry.  The copy-on-write character of the source (fresh object, snapshot
untouched) is captured by `mergeNodeState` being a pure function of its
arguments. -/

/-- Default state key `DEFAULT_IMAGE_KEY` from nodes.ts. -/
def defaultImageKey : String := "image"

/-- State passed between nodes (`images` and `data` maps), generic in the
entry types. -/
structure NodeState (α β : Type) where
  images : String → Option α
  data : String → Option β

/-- Partial state update returned by a node execution. -/
structure NodeResult (α β : Type) where
  images : String → Option α
  data : String → Option β

/-- Model of `mergeNodeState` from nodes.ts: shallow object-spread union,
result entries overriding. -/
def mergeNodeState {α β : Type} (state : NodeState α β) (result : NodeResult α β) :
    NodeState α β :=
  { images := fun key =>
      match result.images key with
      | some v => some v
      | none => state.images key,
    data := fun key =>
      match result.data key with
      | some v => some v
      | none => state.data key }

/-- Claim C2: merging a node result into the running state is a shallow map
union — every key present in `result.images`/`result.data` maps to the
result's entry, and every other key maps to exactly the snapshot's entry.
The merge is a pure function building a fresh state, so the pre-merge
snapshot `s` is untouched and still holds its original entries. -/
theorem mergeNodeState_spec {α β : Type} (s : NodeState α β) (r : NodeResult α β) (k : String) :
    (∀ v, r.images k = some v → (mergeNodeState s r).images k = some v) ∧
    (r.images k = none → (mergeNodeState s r).images k = s.images k) ∧
    (∀ v, r.data k = some v → (mergeNodeState s r).data k = some v) ∧
    (r.data k = none → (mergeNodeState s r).data k = s.data k) := by
  refine ⟨fun v h => ?_, fun h => ?_, fun v h => ?_, fun h => ?_⟩ <;>
    simp [mergeNodeState, h]

/-- Concrete pre-merge state for the C2 witness. -/
def mergeWitnessState : NodeState ℕ ℕ :=
  ⟨fun k => if k = defaultImageKey then some 1 else none, fun _ => none⟩

/-- Concrete node result for the C2 witness. -/
def mergeWitnessResult : NodeResult ℕ ℕ :=
  ⟨fun k => if k = defaultImageKey then some 2 else none, fun _ => none⟩

/-- Witness for `Dilib.mergeNodeState_spec` at concrete maps: the overridden
key holds the result's entry and an untouched key keeps the snapshot's
entry. -/
theorem mergeNodeState_spec_witness :
    (mergeNodeState mergeWitnessState mergeWitnessResult).images defaultImageKey = some 2 ∧
    (mergeNodeState mergeWitnessState mergeWitnessResult).data defaultImageKey =
      mergeWitnessState.data defaultImageKey :=
  ⟨(mergeNodeState_spec mergeWitnessState mergeWitnessResult defaultImageKey).1 2
      (by simp [mergeWitnessResult]),
    (mergeNodeState_spec mergeWitnessState mergeWitnessResult defaultImageKey).2.2.2 rfl⟩

/-! ### Seeded RNG (random.ts)

`SeededRandom` keeps a growing numeric state (`state += 0x6d2b79f5` is exact
as a double for every realistic call count); each bit operation inside
`next()` coerces to 32 bits, so the draw is a function of the state's 32-bit
residue. -/

/-- Model of `SeededRandom` from random.ts. -/
structure SeededRandom where
  state : ℕ

/-- Model of `SeededRandom.next()`: advances the state by `0x6d2b79f5` and
returns the mixed draw in `[0, 1)` (here the divisor is `2^32`, unlike
`hash2D`). -/
def SeededRandom.next (rng : SeededRandom) : SeededRandom × ℚ :=
  let s := rng.state + 0x6d2b79f5
  let t0 := s % U32
  let t1 := imul32 ((t0 ^^^ (t0 >>> 15)) % U32) (t0 ||| 1)
  let t2 := (t1 ^^^ ((t1 + imul32 ((t1 ^^^ (t1 >>> 7)) % U32) (t1 ||| 61)) % U32)) % U32
  let k := (t2 ^^^ (t2 >>> 14)) % U32
  (⟨s⟩, (k : ℚ) / (U32 : ℚ))

/-- Model of `SeededRandom.nextInt(min, max)` (binders renamed `lo`/`hi` to
avoid the ambient `min`/`max` functions). -/
def SeededRandom.nextInt (rng : SeededRandom) (lo hi : ℤ) : SeededRandom × ℤ :=
  let low := Min.min lo hi
  let high := Max.max lo hi
  let r := rng.next
  (r.1, ⌊r.2 * ((high - low + 1 : ℤ) : ℚ)⌋ + low)

/-- Model of `hashSeed` from random.ts: FNV-1a over the character codes of
`String(seed)`. -/
def hashSeedCodes (codes : List ℕ) : ℕ :=
  codes.foldl (fun hash c => imul32 ((hash ^^^ c) % U32) 16777619) 2166136261

/-- Model of `createRandom(seed)` for a provided seed, given the character
codes of `String(seed)`. -/
def createRandom (codes : List ℕ) : SeededRandom := ⟨hashSeedCodes codes⟩

/-- Character codes of the string `42`. -/
def codes42 : List ℕ := [52, 50]

/-- Character codes of the string `43`. -/
def codes43 : List ℕ := [52, 51]

/-! ### Noise seed stash (nodes.ts `ensureSeed`)

`NodeContext.stash` is a `Map<string, unknown>`; only whether the entry under
the key `noiseSeed` is a number matters to `ensureSeed`, so stash values are
modelled as a number or an opaque non-number. -/

/-- A stash entry: a number or some non-number value. -/
inductive StashVal
  | num (n : ℕ)
  | other

/-- Runtime context shared across nodes in a pipeline run: the seeded RNG and
the scratch stash map. -/
structure NodeContext where
  random : SeededRandom
  stash : String → Option StashVal

/-- Stash key used by `ensureSeed`. -/
def noiseSeedKey : String := "noiseSeed"

/-- Model of `ensureSeed` from nodes.ts: returns the stashed numeric
`noiseSeed` if present, otherwise draws `nextInt(0, 0x7fffffff)` once,
stashes it, and returns it.  The mutations of the context are embedded as the
returned updated context. -/
def ensureSeed (context : NodeContext) : ℕ × NodeContext :=
  match context.stash noiseSeedKey with
  | some (StashVal.num n) => (n, context)
  | _ =>
    let r := context.random.nextInt 0 0x7fffffff
    let seed := r.2.toNat
    (seed,
      { random := r.1,
        stash := fun k => if k = noiseSeedKey then some (StashVal.num seed) else context.stash k })

/-! ### Value noise (nodes.ts) -/

/-- Model of the source easing helper `smoothstep`. -/
def smoothstep (t : ℚ) : ℚ := t * t * (3 - 2 * t)

/-- Model of the source interpolation helper `lerp`. -/
def lerp (a b t : ℚ) : ℚ := a + (b - a) * t

/-- Model of `valueNoise` from nodes.ts: smoothstep-eased bilinear
interpolation of hashed lattice values. -/
def valueNoise (x y seed : ℤ) (scale : ℚ) : ℚ :=
  let cell := Max.max 1 scale
  let gx : ℤ := ⌊(x : ℚ) / cell⌋
  let gy : ℤ := ⌊(y : ℚ) / cell⌋
  let tx := ((x : ℚ) - gx * cell) / cell
  let ty := ((y : ℚ) - gy * cell) / cell
  let v00 := hash2D gx gy seed
  let v10 := hash2D (gx + 1) gy seed
  let v01 := hash2D gx (gy + 1) seed
  let v11 := hash2D (gx + 1) (gy + 1) seed
  let sx := smoothstep tx
  let sy := smoothstep ty
  let ix0 := lerp v00 v10 sx
  let ix1 := lerp v01 v11 sx
  lerp ix0 ix1 sy

/-- Model of `fractalValueNoise` from nodes.ts.  After `i` loop iterations
the running amplitude is `persistence ^ i` and the running frequency is
`lacunarity ^ i`, so the loop totals are the sums below; the source divides
by the amplitude total unless it is zero. -/
def fractalValueNoise (x y seed : ℤ) (scale : ℚ) (octaves : ℤ)
    (persistence lacunarity : ℚ) : ℚ :=
  let steps := (Max.max 1 octaves).toNat
  let total := ∑ i ∈ Finset.range steps,
    valueNoise x y (seed + i * 1013) (Max.max 1 (scale / lacunarity ^ i)) * persistence ^ i
  let maxAmp := ∑ i ∈ Finset.range steps, persistence ^ i
  if maxAmp = 0 then 0 else total / maxAmp

/-- Model of the buffer produced by `createValueNoiseNode`'s run function:
the input image is cloned and every pixel's slots are overwritten in rgba8
layout (stride 4, as the source hard-codes) with the mapped noise value,
alpha slot receiving the `alpha` option.  `Uint8Array` assignment wraps
modulo 256. -/
def valueNoiseImage (img : ImageBuffer) (seed : ℤ) (scale : ℚ) (octaves : ℤ)
    (persistence lacunarity : ℚ) (minV maxV : ℚ) (alphaV : ℕ) : ImageBuffer :=
  { img with
    data := fun i =>
      if i < img.width * img.height * 4 then
        if i % 4 = 3 then ((alphaV % 256 : ℕ) : ℚ)
        else
          let p := i / 4
          let x : ℤ := ((p % img.width : ℕ) : ℤ)
          let y : ℤ := ((p / img.width : ℕ) : ℤ)
          let value := fractalValueNoise x y seed scale octaves persistence lacunarity
          ((((jsRound (minV + (maxV - minV) * value)) % 256).toNat : ℕ) : ℚ)
      else img.data i }

/-- Claim C10 (amended): noise-field nodes in one pipeline run do **not**
receive distinct lattice seeds — `ensureSeed` stashes the first drawn seed
under `noiseSeed` and every later call in the same run returns that same
seed, so two value-noise nodes run back to back produce bit-identical noise
(fully correlated), with no opt-in involved. -/
theorem ensureSeed_stash_after (context : NodeContext) :
    ((ensureSeed context).2).stash noiseSeedKey = some (StashVal.num (ensureSeed context).1) := by
  rcases h : context.stash noiseSeedKey with _ | v
  · simp only [ensureSeed, h]
    simp
  · cases v with
    | num n => simp only [ensureSeed, h]
    | other =>
      simp only [ensureSeed, h]
      simp

theorem ensureSeed_second_eq (context : NodeContext) :
    (ensureSeed (ensureSeed context).2).1 = (ensureSeed context).1 := by
  have h2 := ensureSeed_stash_after context
  conv_lhs => rw [ensureSeed]
  rw [h2]

theorem ensureSeed_shared (context : NodeContext) :
    (ensureSeed (ensureSeed context).2).1 = (ensureSeed context).1 ∧
    ((ensureSeed context).2).stash noiseSeedKey = some (StashVal.num (ensureSeed context).1) ∧
    ∀ (img : ImageBuffer) (scale : ℚ) (octaves : ℤ) (persistence lacunarity minV maxV : ℚ)
      (alphaV : ℕ) (i : ℕ),
      (valueNoiseImage
          (valueNoiseImage img (((ensureSeed context).1 : ℕ) : ℤ) scale octaves persistence
            lacunarity minV maxV alphaV)
          (((ensureSeed (ensureSeed context).2).1 : ℕ) : ℤ) scale octaves persistence lacunarity
          minV maxV alphaV).data i =
      (valueNoiseImage img (((ensureSeed context).1 : ℕ) : ℤ) scale octaves persistence
          lacunarity minV maxV alphaV).data i := by
  refine ⟨ensureSeed_second_eq context, ensureSeed_stash_after context,
    fun img scale octaves persistence lacunarity minV maxV alphaV i => ?_⟩
  rw [ensureSeed_second_eq context]
  by_cases hi : i < img.width * img.height * 4
  · simp only [valueNoiseImage]
    rw [if_pos hi, if_pos hi]
  · simp only [valueNoiseImage]
    rw [if_neg hi, if_neg hi]

/-- Concrete fresh pipeline context (seed `42`, empty stash) for the C10
counterexample. -/
def sampleNoiseContext : NodeContext := ⟨createRandom codes42, fun _ => none⟩

/-- Counterexample for claim C10: in a fresh run context with no opt-in of
any kind, the second noise node's `ensureSeed` returns exactly the first
node's lattice seed — the seeds are not distinct. -/
theorem ensureSeed_not_distinct :
    (ensureSeed (ensureSeed sampleNoiseContext).2).1 = (ensureSeed sampleNoiseContext).1 := by
  with_unfolding_all decide

/-! ### Whole-image writes

Several node bodies allocate a fresh buffer and write every pixel with
`setPixel` in a row-major double loop (`mapPixels`, the generic convolution
loop).  Each iteration writes exactly the `channelCount` slots of its pixel,
all iterations write disjoint slots, and the fresh allocation is zeroed; so
slot `i` of the resulting storage holds channel `i % channelCount` of pixel
`i / channelCount`, which is what `buildImage` states directly. -/

/-- Denotation of `output = new ImageBuffer(w, h, format)` followed by
`output.setPixel(x, y, f x y)` for every in-range `(x, y)`. -/
def buildImage (width height : ℕ) (format : PixelFormat) (f : ℕ → ℕ → Px) : ImageBuffer :=
  ⟨width, height, format, fun i =>
    if i < width * height * format.channelCount then
      encodePx format
        (f ((i / format.channelCount) % width) ((i / format.channelCount) / width))
        (i % format.channelCount)
    else 0⟩

/-- Model of `ImageBuffer.mapPixels`: a fresh same-size same-format buffer
whose pixel `(x, y)` is `mapper (getPixel x y) x y`. -/
def ImageBuffer.mapPixels (img : ImageBuffer) (mapper : Px → ℕ → ℕ → Px) : ImageBuffer :=
  buildImage img.width img.height img.format (fun x y => mapper (img.getPixel x y) x y)

theorem buildImage_data_at (width height : ℕ) (format : PixelFormat) (f : ℕ → ℕ → Px)
    (x y k : ℕ) (hx : x < width) (hy : y < height) (hk : k < format.channelCount) :
    (buildImage width height format f).data ((y * width + x) * format.channelCount + k) =
      encodePx format (f x y) k := by
  have hc : 0 < format.channelCount := by cases format <;> simp [PixelFormat.channelCount]
  have hw : 0 < width := by omega
  have hpix : y * width + x < width * height := by
    have h1 : y * width + x < (y + 1) * width := by
      rw [Nat.add_one_mul]
      omega
    have h2 : (y + 1) * width ≤ height * width := Nat.mul_le_mul_right width (by omega)
    rw [Nat.mul_comm width height]
    omega
  have hin : (y * width + x) * format.channelCount + k < width * height * format.channelCount := by
    have h1 : (y * width + x) * format.channelCount + k <
        (y * width + x + 1) * format.channelCount := by
      rw [Nat.add_one_mul]
      omega
    have h2 : (y * width + x + 1) * format.channelCount ≤
        width * height * format.channelCount := Nat.mul_le_mul_right _ (by omega)
    omega
  have hdiv : ((y * width + x) * format.channelCount + k) / format.channelCount = y * width + x := by
    rw [Nat.mul_comm (y * width + x) format.channelCount, Nat.mul_add_div hc]
    have := Nat.div_eq_of_lt hk
    omega
  have hmod : ((y * width + x) * format.channelCount + k) % format.channelCount = k := by
    rw [Nat.mul_comm (y * width + x) format.channelCount, Nat.mul_add_mod]
    exact Nat.mod_eq_of_lt hk
  have hxmod : (y * width + x) % width = x := by
    rw [Nat.add_comm (y * width) x, Nat.add_mul_mod_self_right]
    exact Nat.mod_eq_of_lt hx
  have hydiv : (y * width + x) / width = y := by
    rw [Nat.add_comm (y * width) x, Nat.mul_comm y width, Nat.add_mul_div_left x y hw]
    have := Nat.div_eq_of_lt hx
    omega
  unfold buildImage
  simp only
  rw [if_pos hin, hdiv, hmod, hxmod, hydiv]

/-! ### Convolution (nodes.ts)

`createConvolutionNode` validates the kernel (non-empty odd square), computes
`radius = size / 2`, `divisor = sum of weights` (when normalising, with 0
replaced by 1), and dispatches: the fast path `convolveRgba8` writes raw
clamped bytes; every other format runs a `getPixel`/`setPixel` loop.  The
kernel list-of-lists `kernel[ky][kx]` is embedded as the offset-indexed
function `kernel (ky - radius) (kx - radius)`.  Zero weights are skipped by
the source, which does not change the accumulated sums. -/

/-- Model of `convolveRgba8` from nodes.ts (generic in the numeric field so
the same definition serves the rational identity-kernel path and the real
Gaussian path). -/
def convolveRgba8 {K : Type} [LinearOrderedField K] [FloorRing K] (img : ImageBuffer)
    (kernel : ℤ → ℤ → K) (divisor : K) (radius size : ℕ) : ImageBuffer :=
  ⟨img.width, img.height, PixelFormat.rgba8, fun i =>
    if i < img.width * img.height * 4 then
      let p := i / 4
      let x := p % img.width
      let y := p / img.width
      let c := i % 4
      let acc : K := ∑ ky ∈ Finset.range size, ∑ kx ∈ Finset.range size,
        (((img.data
            (((clampI ((y : ℤ) + ky - radius) 0 ((img.height : ℤ) - 1)).toNat * img.width +
                (clampI ((x : ℤ) + kx - radius) 0 ((img.width : ℤ) - 1)).toNat) * 4 + c) : ℚ) : K)) *
          kernel ((ky : ℤ) - radius) ((kx : ℤ) - radius)
      ((clampByte (acc / divisor) : ℕ) : ℚ)
    else 0⟩

/-- Model of the generic (non-rgba8) convolution loop of
`createConvolutionNode`: per-pixel accumulation of decoded pixels times
weights, then `setPixel` of the divided sums. -/
def convolveGeneric (img : ImageBuffer) (kernel : ℤ → ℤ → ℚ) (divisor : ℚ)
    (radius size : ℕ) : ImageBuffer :=
  buildImage img.width img.height img.format (fun x y =>
    let sample := fun (chan : Px → ℚ) =>
      ∑ ky ∈ Finset.range size, ∑ kx ∈ Finset.range size,
        chan (img.getPixel ((clampI ((x : ℤ) + kx - radius) 0 ((img.width : ℤ) - 1)).toNat)
            ((clampI ((y : ℤ) + ky - radius) 0 ((img.height : ℤ) - 1)).toNat)) *
          kernel ((ky : ℤ) - radius) ((kx : ℤ) - radius)
    ⟨sample Px.r / divisor, sample Px.g / divisor, sample Px.b / divisor,
      sample Px.a / divisor⟩)

/-- The kernel `[[1]]`: size 1 (a non-empty odd square), weight sum 1, so
with `normalize = true` the divisor is 1 and the radius is 0. -/
def identityKernel : ℤ → ℤ → ℚ := fun _ _ => 1

/-- Run function of `createConvolutionNode('identity', [[1]])` applied to a
buffer: the rgba8 fast path or the generic per-format loop. -/
def identityConvolve (img : ImageBuffer) : ImageBuffer :=
  if img.format = PixelFormat.rgba8 then convolveRgba8 img identityKernel 1 0 1
  else convolveGeneric img identityKernel 1 0 1

/-- Storage well-formedness of a byte-format buffer: every in-range slot of
the `Uint8Array` holds a byte. -/
def ByteData (img : ImageBuffer) : Prop :=
  ∀ i, i < img.width * img.height * img.format.channelCount →
    ∃ n : ℕ, img.data i = (n : ℚ) ∧ n ≤ 255

/-- Byte storage avoiding the ambiguous value 1 in every slot. -/
def ByteDataNoOne (img : ImageBuffer) : Prop :=
  ∀ i, i < img.width * img.height * img.format.channelCount →
    ∃ n : ℕ, img.data i = (n : ℚ) ∧ n ≤ 255 ∧ n ≠ 1

theorem clampByte_natCast (n : ℕ) (h : n ≤ 255) : clampByte ((n : ℚ)) = n := by
  unfold clampByte
  have hmin : min (255 : ℚ) (n : ℚ) = (n : ℚ) := by
    rw [min_eq_right]
    exact_mod_cast h
  have hmax : max (0 : ℚ) (n : ℚ) = (n : ℚ) := by
    rw [max_eq_right]
    positivity
  rw [hmin, hmax]
  have hr : jsRound ((n : ℚ)) = (n : ℤ) := by
    have := jsRound_intCast (K := ℚ) (n : ℤ)
    rwa [Int.cast_natCast] at this
  rw [hr]
  omega

theorem toByte_le (v : ℚ) : toByte v ≤ 255 := by
  unfold toByte
  omega

theorem clampI_eq_self (x : ℕ) (w : ℕ) (hx : x < w) : clampI ((x : ℕ) : ℤ) 0 ((w : ℤ) - 1) = x := by
  unfold clampI
  omega

theorem idxDecomp (w h c i : ℕ) (hc : 0 < c) (hi : i < w * h * c) :
    0 < w ∧ (i / c) % w < w ∧ (i / c) / w < h ∧
      ((i / c) / w * w + (i / c) % w) * c + i % c = i := by
  have hw : 0 < w := by
    rcases Nat.eq_zero_or_pos w with h0 | h
    · subst h0
      simp at hi
    · exact h
  have hdc : i / c < w * h := by
    rw [Nat.div_lt_iff_lt_mul hc]
    exact hi
  have hy : (i / c) / w < h := by
    rw [Nat.div_lt_iff_lt_mul hw]
    rw [Nat.mul_comm w h] at hdc
    exact hdc
  refine ⟨hw, Nat.mod_lt _ hw, hy, ?_⟩
  have h1 : (i / c) / w * w + (i / c) % w = i / c := by
    rw [Nat.mul_comm ((i / c) / w) w]
    exact Nat.div_add_mod (i / c) w
  rw [h1, Nat.mul_comm (i / c) c]
  exact Nat.div_add_mod i c

theorem getPixel_rgba32f (img : ImageBuffer) (hf : img.format = PixelFormat.rgba32f) (x y : ℕ) :
    img.getPixel x y =
      ⟨(toByte (img.data ((y * img.width + x) * 4)) : ℚ),
        (toByte (img.data ((y * img.width + x) * 4 + 1)) : ℚ),
        (toByte (img.data ((y * img.width + x) * 4 + 2)) : ℚ),
        (toByte (img.data ((y * img.width + x) * 4 + 3)) : ℚ)⟩ := by
  unfold ImageBuffer.getPixel
  simp only [hf, PixelFormat.channelCount]

theorem convolveRgba8_identity_data (img : ImageBuffer) (i : ℕ)
    (hi : i < img.width * img.height * 4) :
    (convolveRgba8 (K := ℚ) img identityKernel 1 0 1).data i = clampByte (img.data i) := by
  obtain ⟨hw, hx, hy, hrecomp⟩ := idxDecomp img.width img.height 4 i (by norm_num) hi
  unfold convolveRgba8
  simp only
  rw [if_pos hi, Finset.sum_range_one, Finset.sum_range_one]
  simp only [identityKernel, Nat.cast_zero, CharP.cast_eq_zero, add_zero, sub_zero, mul_one,
    div_one]
  rw [clampI_eq_self _ _ hy, clampI_eq_self _ _ hx, Int.toNat_natCast, Int.toNat_natCast]
  rw [hrecomp]
  simp [Rat.cast_id]

theorem getPixel_gray8 (img : ImageBuffer) (hf : img.format = PixelFormat.gray8) (x y : ℕ) :
    img.getPixel x y =
      ⟨img.data (y * img.width + x), img.data (y * img.width + x),
        img.data (y * img.width + x), 255⟩ := by
  unfold ImageBuffer.getPixel
  simp only [hf, PixelFormat.channelCount, Nat.mul_one]

theorem getPixel_rgb8 (img : ImageBuffer) (hf : img.format = PixelFormat.rgb8) (x y : ℕ) :
    img.getPixel x y =
      ⟨img.data ((y * img.width + x) * 3), img.data ((y * img.width + x) * 3 + 1),
        img.data ((y * img.width + x) * 3 + 2), 255⟩ := by
  unfold ImageBuffer.getPixel
  simp only [hf, PixelFormat.channelCount]

/-- Claim C5 (amended): the convolution node built from the identity kernel
`[[1]]` (size 1, normalize = true) is pixel-preserving with the following
format-specific caveats forced by `Dilib.identityConvolve_not_identity`:
on rgba8 buffers the output storage is bit-identical; on gray8/rgb8 buffers
it is bit-identical provided no stored byte is 1 (the generic path re-encodes
through `toByte`, which maps 1 to 255); on rgba32f buffers the decoded pixels
agree provided no channel decodes to the byte 1 (the storage itself is
re-quantised through 0–255 space, so raw floats need not be preserved). -/
theorem identityConvolve_spec (img : ImageBuffer) :
    (img.format = PixelFormat.rgba8 → ByteData img →
      ∀ i, i < img.width * img.height * 4 → (identityConvolve img).data i = img.data i) ∧
    ((img.format = PixelFormat.gray8 ∨ img.format = PixelFormat.rgb8) → ByteDataNoOne img →
      ∀ i, i < img.width * img.height * img.format.channelCount →
        (identityConvolve img).data i = img.data i) ∧
    (img.format = PixelFormat.rgba32f →
      (∀ i, i < img.width * img.height * 4 → toByte (img.data i) ≠ 1) →
      ∀ x, x < img.width → ∀ y, y < img.height →
        (identityConvolve img).getPixel x y = img.getPixel x y) := by
  refine ⟨?_, ?_, ?_⟩
  · intro hfmt hbd i hi
    unfold identityConvolve
    rw [if_pos hfmt, convolveRgba8_identity_data img i hi]
    obtain ⟨n, hn, hn255⟩ := hbd i (by rw [hfmt]; simpa [PixelFormat.channelCount] using hi)
    rw [hn, clampByte_natCast n hn255]
  · intro hfmt hbd i hi
    have hne : ¬ img.format = PixelFormat.rgba8 := by
      rcases hfmt with h | h <;> rw [h] <;> intro hcon <;> cases hcon
    obtain ⟨n, hn, hn255, hn1⟩ := hbd i hi
    have hc : 0 < img.format.channelCount := by
      cases img.format <;> simp [PixelFormat.channelCount]
    obtain ⟨hw, hx, hy, hrecomp⟩ := idxDecomp img.width img.height img.format.channelCount i hc hi
    unfold identityConvolve
    rw [if_neg hne]
    conv_lhs => rw [convolveGeneric, ← hrecomp]
    rw [buildImage_data_at img.width img.height img.format _ _ _ _ hx hy (Nat.mod_lt _ hc)]
    simp only [Finset.sum_range_one, identityKernel, Nat.cast_zero, CharP.cast_eq_zero, add_zero,
      sub_zero, mul_one, div_one]
    rw [clampI_eq_self _ _ hx, clampI_eq_self _ _ hy, Int.toNat_natCast, Int.toNat_natCast]
    rcases hfmt with h | h
    · rw [h] at hx hy hrecomp ⊢
      simp only [PixelFormat.channelCount, Nat.div_one, Nat.mod_one, Nat.mul_one,
        Nat.add_zero] at hx hy hrecomp ⊢
      rw [getPixel_gray8 img h]
      simp only [encodePx]
      rw [hrecomp, hn]
      have hmean : ((n : ℚ) + n + n) / 3 = (n : ℚ) := by ring
      rw [hmean, toByte_natCast n hn255 hn1]
    · rw [h] at hx hy hrecomp ⊢
      simp only [PixelFormat.channelCount] at hx hy hrecomp ⊢
      rw [getPixel_rgb8 img h]
      simp only [encodePx]
      have hk3 : i % 3 = 0 ∨ i % 3 = 1 ∨ i % 3 = 2 := by omega
      rcases hk3 with hkv | hkv | hkv <;> rw [hkv] at hrecomp ⊢
      · rw [if_pos rfl, Nat.add_zero] at *
        rw [hrecomp, hn, toByte_natCast n hn255 hn1]
      · rw [if_neg (by norm_num), if_pos rfl]
        rw [hrecomp, hn, toByte_natCast n hn255 hn1]
      · rw [if_neg (by norm_num), if_neg (by norm_num)]
        rw [hrecomp, hn, toByte_natCast n hn255 hn1]
  · intro hfmt hone x hx y hy
    have hne : ¬ img.format = PixelFormat.rgba8 := by
      rw [hfmt]
      intro hcon
      cases hcon
    have hgout : identityConvolve img = convolveGeneric img identityKernel 1 0 1 := by
      unfold identityConvolve
      rw [if_neg hne]
    have hfout : (convolveGeneric img identityKernel 1 0 1).format = PixelFormat.rgba32f := by
      rw [show (convolveGeneric img identityKernel 1 0 1).format = img.format from rfl, hfmt]
    have hwout : (convolveGeneric img identityKernel 1 0 1).width = img.width := rfl
    have hbase : ∀ k, k < 4 →
        (convolveGeneric img identityKernel 1 0 1).data
            ((y * img.width + x) * 4 + k) =
          encodePx PixelFormat.rgba32f (img.getPixel x y) k := by
      intro k hk
      have h4 : img.format.channelCount = 4 := by
        rw [hfmt]
        norm_num [PixelFormat.channelCount]
      conv_lhs => rw [convolveGeneric]
      rw [show (y * img.width + x) * 4 + k =
          (y * img.width + x) * img.format.channelCount + k by rw [h4]]
      rw [buildImage_data_at img.width img.height img.format _ _ _ _ hx hy (by omega)]
      simp only [Finset.sum_range_one, identityKernel, Nat.cast_zero, CharP.cast_eq_zero,
        add_zero, sub_zero, mul_one, div_one]
      rw [clampI_eq_self _ _ hx, clampI_eq_self _ _ hy, Int.toNat_natCast, Int.toNat_natCast,
        hfmt]
    have hch : ∀ k, k < 4 →
        toByte (toFloat ((toByte (img.data ((y * img.width + x) * 4 + k)) : ℚ))) =
        toByte (img.data ((y * img.width + x) * 4 + k)) := by
      intro k hk
      have hlt : (y * img.width + x) * 4 + k < img.width * img.height * 4 := by
        have h1 : (y * img.width + x) * 4 + k < (y * img.width + x + 1) * 4 := by
          rw [Nat.add_one_mul]
          omega
        have hpix : y * img.width + x < img.width * img.height := by
          have h2 : y * img.width + x < (y + 1) * img.width := by
            rw [Nat.add_one_mul]
            omega
          have h3 : (y + 1) * img.width ≤ img.height * img.width :=
            Nat.mul_le_mul_right _ (by omega)
          rw [Nat.mul_comm img.width img.height]
          omega
        have h4 : (y * img.width + x + 1) * 4 ≤ img.width * img.height * 4 :=
          Nat.mul_le_mul_right _ (by omega)
        omega
      exact toByte_toFloat_natCast _ (toByte_le _)
        (hone ((y * img.width + x) * 4 + k) hlt)
    rw [hgout, getPixel_rgba32f _ hfout x y, getPixel_rgba32f img hfmt x y, hwout]
    have e0 := hbase 0 (by norm_num)
    have e1 := hbase 1 (by norm_num)
    have e2 := hbase 2 (by norm_num)
    have e3 := hbase 3 (by norm_num)
    rw [getPixel_rgba32f img hfmt x y] at e0 e1 e2 e3
    simp only [encodePx] at e0 e1 e2 e3
    norm_num at e0 e1 e2 e3
    rw [e0, e1, e2, e3]
    have c0 := hch 0 (by norm_num)
    have c1 := hch 1 (by norm_num)
    have c2 := hch 2 (by norm_num)
    have c3 := hch 3 (by norm_num)
    norm_num at c0
    rw [c0, c1, c2, c3]

/-- Concrete 1×1 gray8 buffer whose single byte is 1. -/
def grayOneBuf : ImageBuffer := ⟨1, 1, PixelFormat.gray8, fun i => if i = 0 then 1 else 0⟩

/-- Counterexample for claim C5: on a gray8 buffer storing the byte 1, the
identity-kernel convolution node rewrites the stored byte to 255 (the generic
path re-encodes through `toByte`, which treats 1 as a normalised intensity),
so the output buffer is not pixel-identical to the input. -/
theorem identityConvolve_not_identity :
    (identityConvolve grayOneBuf).data 0 = 255 ∧ grayOneBuf.data 0 = 1 := by
  constructor
  · with_unfolding_all decide
  · with_unfolding_all decide

/-- Concrete 1×1 zeroed gray8 buffer. -/
def zeroGrayOneByOne : ImageBuffer := ⟨1, 1, PixelFormat.gray8, fun _ => 0⟩

/-- Witness for `Dilib.identityConvolve_spec` at a concrete input: the
identity convolution preserves a zeroed 1×1 gray8 buffer. -/
theorem identityConvolve_spec_witness :
    (identityConvolve zeroGrayOneByOne).data 0 = zeroGrayOneByOne.data 0 :=
  (identityConvolve_spec zeroGrayOneByOne).2.1 (Or.inl rfl)
    (fun _ _ => ⟨0, by norm_num [zeroGrayOneByOne], by norm_num, by norm_num⟩) 0
    (by norm_num [zeroGrayOneByOne, PixelFormat.channelCount])

/-! ### Noise/invert pipeline (pipeline.ts, nodes.ts)

The claim C9 pipeline is `[createNoiseNode({grayscale, min 0, max 255}),
createInvertNode()]` run on a 64×64 empty rgba8 source.  `Pipeline.runState`
builds a fresh context (`createRandom(seed)`, empty stash), normalises the
input into a state keyed by `DEFAULT_IMAGE_KEY`, then for each node reads the
input key (`MissingInput` → `none`), runs it, and merges the single-key
result; `run()` finally projects the default key (`MissingOutput` → `none`).
The noise node's `mapPixels` mapper is invoked once per pixel in row-major
order and, in grayscale mode, consumes exactly one `nextInt` draw per call,
so pixel `(x, y)` sees the RNG advanced by `y*width + x` draws. -/

/-- The invert mapper of `createInvertNode`. -/
def invertPx (p : Px) : Px := ⟨255 - p.r, 255 - p.g, 255 - p.b, p.a⟩

/-- Model of the invert node body: `image.mapPixels(invert)`. -/
def invertImage (img : ImageBuffer) : ImageBuffer := img.mapPixels (fun p _ _ => invertPx p)

/-- RNG state after `n` calls of `next()` (each call adds `0x6d2b79f5` before
mixing; the sum stays exact in double precision). -/
def SeededRandom.advanced (rng : SeededRandom) (n : ℕ) : SeededRandom :=
  ⟨rng.state + n * 0x6d2b79f5⟩

/-- Model of the grayscale branch of `createNoiseNode`'s body: `mapPixels`
writing `{r, r, r, alpha}` with one `nextInt(min, max)` draw per pixel in
row-major order. -/
def noiseImageGray (img : ImageBuffer) (rng : SeededRandom) (lo hi alphaV : ℤ) : ImageBuffer :=
  buildImage img.width img.height img.format (fun x y =>
    let v := ((rng.advanced (y * img.width + x)).nextInt lo hi).2
    ⟨(v : ℚ), (v : ℚ), (v : ℚ), (alphaV : ℚ)⟩)

/-- Model of `Pipeline.runState` followed by the `run()` projection for the
pipeline `[noise (grayscale, 0–255), invert]` on an empty `width × height`
rgba8 source, seeded with the given seed-string character codes.  `none`
models the thrown `MissingInput`/`MissingOutput` errors. -/
def runNoiseInvert (codes : List ℕ) (width height : ℕ) : Option ImageBuffer :=
  let rng := createRandom codes
  let input : ImageBuffer := ⟨width, height, PixelFormat.rgba8, fun _ => 0⟩
  let state0 : NodeState ImageBuffer Unit :=
    ⟨fun k => if k = defaultImageKey then some input else none, fun _ => none⟩
  match state0.images defaultImageKey with
  | none => none
  | some img1 =>
    let out1 := noiseImageGray img1 rng 0 255 255
    let state1 := mergeNodeState state0
      ⟨fun k => if k = defaultImageKey then some out1 else none, fun _ => none⟩
    match state1.images defaultImageKey with
    | none => none
    | some img2 =>
      let out2 := invertImage img2
      let state2 := mergeNodeState state1
        ⟨fun k => if k = defaultImageKey then some out2 else none, fun _ => none⟩
      state2.images defaultImageKey

/-- The buffer produced by the C9 pipeline (noise then invert on a 64×64
empty rgba8 source). -/
def noiseInvertBuf (codes : List ℕ) : ImageBuffer :=
  invertImage (noiseImageGray ⟨64, 64, PixelFormat.rgba8, fun _ => 0⟩ (createRandom codes) 0 255 255)

theorem runNoiseInvert_eq (codes : List ℕ) :
    runNoiseInvert codes 64 64 = some (noiseInvertBuf codes) := by
  unfold runNoiseInvert noiseInvertBuf
  simp [mergeNodeState]

/-- Claim C9: the pipeline `[noise (grayscale, min 0, max 255), invert]` on a
64×64 empty rgba8 input is bit-for-bit reproducible for seed `42` (in this
pure embedding two runs are the same function application), and its output
differs from the seed `43` run (already at storage slot 0: 177 versus 28). -/
theorem noiseInvert_deterministic_and_seed_sensitive :
    runNoiseInvert codes42 64 64 = runNoiseInvert codes42 64 64 ∧
    runNoiseInvert codes42 64 64 ≠ runNoiseInvert codes43 64 64 := by
  refine ⟨rfl, fun h => ?_⟩
  rw [runNoiseInvert_eq codes42, runNoiseInvert_eq codes43] at h
  have h2 : noiseInvertBuf codes42 = noiseInvertBuf codes43 := Option.some.inj h
  have h3 : (noiseInvertBuf codes42).data 0 = (noiseInvertBuf codes43).data 0 := by rw [h2]
  have v42 : (noiseInvertBuf codes42).data 0 = 177 := by with_unfolding_all decide
  have v43 : (noiseInvertBuf codes43).data 0 = 28 := by with_unfolding_all decide
  rw [v42, v43] at h3
  norm_num at h3

/-! ### Alpha boundary masks (nodes.ts)

Masks are `Uint8Array`s of size `width * height`, modelled as total functions
`ℕ → ℕ` taking values 0/1; every theorem quantifies only over in-range
indices.  The in-place array writes of the source are embedded as the
per-cell characterisations of the finished arrays: `computeAlphaBoundaryMask`
sets `mask[index] = 1` exactly when the loop body finds an in-bounds solid
neighbour of a non-solid cell. -/

/-- Model of `NEIGHBOR_OFFSETS_4` from nodes.ts. -/
def neighborOffsets4 : List (ℤ × ℤ) := [(1, 0), (-1, 0), (0, 1), (0, -1)]

/-- Model of `NEIGHBOR_OFFSETS_8` from nodes.ts. -/
def neighborOffsets8 : List (ℤ × ℤ) :=
  [(1, 0), (-1, 0), (0, 1), (0, -1), (1, 1), (-1, 1), (1, -1), (-1, -1)]

/-- Model of `getNeighborOffsets` from nodes.ts. -/
def getNeighborOffsets (connectivity : ℕ) : List (ℤ × ℤ) :=
  if connectivity = 4 then neighborOffsets4 else neighborOffsets8

/-- Model of `computeAlphaMask` from nodes.ts: cell `i` is solid when the
alpha byte of pixel `i` is at or above the threshold (the image is rgba8 by
the callers' normalisation). -/
def computeAlphaMask (img : ImageBuffer) (alphaThreshold : ℚ) : ℕ → ℕ :=
  fun i => if alphaThreshold ≤ img.data (i * 4 + 3) then 1 else 0

/-- Model of `computeAlphaBoundaryMask` from nodes.ts: a non-solid cell is a
boundary seed when some in-bounds neighbour (per connectivity) is solid. -/
def computeAlphaBoundaryMask (solidMask : ℕ → ℕ) (width height : ℕ)
    (connectivity : ℕ) : ℕ → ℕ :=
  fun index =>
    if solidMask index = 0 ∧
        ((getNeighborOffsets connectivity).any (fun d =>
          let nx : ℤ := ((index % width : ℕ) : ℤ) + d.1
          let ny : ℤ := ((index / width : ℕ) : ℤ) + d.2
          decide (0 ≤ nx) && decide (0 ≤ ny) && decide (nx < (width : ℤ)) &&
            decide (ny < (height : ℤ)) && (solidMask ((ny * width + nx).toNat) == 1)) = true)
    then 1 else 0

/-- Pass condition of the optional `allowedMask` parameter of `expandMask`
(`if (allowedMask && allowedMask[nidx] === 0) continue`). -/
def allowedOkB (allowedMask : Option (ℕ → ℕ)) (i : ℕ) : Bool :=
  match allowedMask with
  | none => true
  | some m => m i != 0

/-- One BFS layer of `expandMask`: a cell is covered after the next layer if
it was already covered, or if it is an in-bounds cell passing the
allowed-mask check with some in-bounds neighbour (per connectivity) already
covered. -/
def expandOnce (width height connectivity : ℕ) (allowedMask : Option (ℕ → ℕ))
    (cur : ℕ → Bool) : ℕ → Bool :=
  fun index =>
    cur index ||
    (decide (index < width * height) && allowedOkB allowedMask index &&
      (getNeighborOffsets connectivity).any (fun d =>
        let nx : ℤ := ((index % width : ℕ) : ℤ) + d.1
        let ny : ℤ := ((index / width : ℕ) : ℤ) + d.2
        decide (0 ≤ nx) && decide (0 ≤ ny) && decide (nx < (width : ℤ)) &&
          decide (ny < (height : ℤ)) && cur ((ny * width + nx).toNat)))

/-- Model of `expandMask` from nodes.ts.  The source runs a queue-based
multi-source BFS: every seed enters the queue at distance 0, a cell entering
at distance `depth + 1` requires an in-bounds move from a dequeued cell at
distance `depth < maxDepth` into a cell passing the allowed-mask check, and
the output marks exactly the cells that ever enter the queue — that is, the
cells whose BFS distance from the seed set (moving only into allowed cells)
is at most `maxDepth = max(0, thickness - 1)`.  Layer-synchronous iteration
computes the same set: after `d` applications of `expandOnce` exactly the
cells at BFS distance at most `d` are covered. -/
def expandMask (seedMask : ℕ → ℕ) (width height : ℕ) (thickness : ℕ) (connectivity : ℕ)
    (allowedMask : Option (ℕ → ℕ)) : ℕ → ℕ :=
  let maxDepth := thickness - 1
  let final := (expandOnce width height connectivity allowedMask)^[maxDepth]
    (fun i => seedMask i == 1)
  fun i => if final i then 1 else 0

/-- Model of `computeAlphaStrokeMask` from nodes.ts: boundary seeds, grown by
`expandMask` restricted to transparent (non-solid) cells when
`thickness > 1`. -/
def computeAlphaStrokeMask (img : ImageBuffer) (alphaThreshold : ℚ)
    (thickness connectivity : ℕ) : ℕ → ℕ :=
  let solidMask := computeAlphaMask img alphaThreshold
  let boundaryMask := computeAlphaBoundaryMask solidMask img.width img.height connectivity
  if thickness ≤ 1 then boundaryMask
  else
    expandMask boundaryMask img.width img.height thickness connectivity
      (some (fun i => if solidMask i = 0 then 1 else 0))

theorem computeAlphaBoundaryMask_eq_one (solid : ℕ → ℕ) (w h conn : ℕ) (i : ℕ) :
    computeAlphaBoundaryMask solid w h conn i = 1 ↔
      (solid i = 0 ∧ ∃ d ∈ getNeighborOffsets conn,
        0 ≤ ((i % w : ℕ) : ℤ) + d.1 ∧ 0 ≤ ((i / w : ℕ) : ℤ) + d.2 ∧
        ((i % w : ℕ) : ℤ) + d.1 < (w : ℤ) ∧ ((i / w : ℕ) : ℤ) + d.2 < (h : ℤ) ∧
        solid (((((i / w : ℕ) : ℤ) + d.2) * w + (((i % w : ℕ) : ℤ) + d.1)).toNat) = 1) := by
  unfold computeAlphaBoundaryMask
  split_ifs with hcond
  · simp only [List.any_eq_true, Bool.and_eq_true, decide_eq_true_eq, beq_iff_eq] at hcond
    constructor
    · intro _
      obtain ⟨hs, d, hd, hconds⟩ := hcond
      exact ⟨hs, d, hd, hconds.1.1.1.1, hconds.1.1.1.2, hconds.1.1.2, hconds.1.2, hconds.2⟩
    · intro _
      rfl
  · simp only [List.any_eq_true, Bool.and_eq_true, decide_eq_true_eq, beq_iff_eq] at hcond
    constructor
    · intro hzero
      cases hzero
    · intro ⟨hs, d, hd, h1, h2, h3, h4, h5⟩
      exact absurd ⟨hs, d, hd, ⟨⟨⟨⟨h1, h2⟩, h3⟩, h4⟩, h5⟩⟩ hcond

theorem computeAlphaBoundaryMask_ne_one (solid : ℕ → ℕ) (w h conn : ℕ) (i : ℕ)
    (hne : computeAlphaBoundaryMask solid w h conn i ≠ 1) :
    computeAlphaBoundaryMask solid w h conn i = 0 := by
  unfold computeAlphaBoundaryMask at *
  split_ifs at * with hc
  · exact absurd rfl hne
  · rfl

theorem rowIdx_mod (w y x : ℕ) (hx : x < w) : (y * w + x) % w = x := by
  rw [Nat.add_comm (y * w) x, Nat.add_mul_mod_self_right]
  exact Nat.mod_eq_of_lt hx

theorem rowIdx_div (w y x : ℕ) (hx : x < w) : (y * w + x) / w = y := by
  have hw : 0 < w := by omega
  rw [Nat.add_comm (y * w) x, Nat.mul_comm y w, Nat.add_mul_div_left x y hw]
  have := Nat.div_eq_of_lt hx
  omega

theorem rowIdx_lt (w h y x : ℕ) (hx : x < w) (hy : y < h) : y * w + x < w * h := by
  have h1 : y * w + x < (y + 1) * w := by
    rw [Nat.add_one_mul]
    omega
  have h2 : (y + 1) * w ≤ h * w := Nat.mul_le_mul_right _ (by omega)
  rw [Nat.mul_comm w h]
  omega

theorem rowIdx_inj (w px py qx qy : ℕ) (hpx : px < w) (hqx : qx < w)
    (hne : ¬ (px = qx ∧ py = qy)) : py * w + px ≠ qy * w + qx := by
  intro heq
  have h1 := rowIdx_mod w py px hpx
  have h3 := rowIdx_div w py px hpx
  rw [heq] at h1 h3
  have h2 := rowIdx_mod w qy qx hqx
  have h4 := rowIdx_div w qy qx hqx
  exact hne ⟨by omega, by omega⟩

theorem computeAlphaBoundaryMask_one_of (solid : ℕ → ℕ) (w h : ℕ) (px py qx qy : ℕ)
    (dx dy : ℤ) (hpx : px < w) (hpy : py < h) (hqx : qx < w) (hqy : qy < h)
    (hd : (dx, dy) ∈ getNeighborOffsets 8)
    (hex : (qx : ℤ) = (px : ℤ) + dx) (hey : (qy : ℤ) = (py : ℤ) + dy)
    (hs0 : solid (py * w + px) = 0) (hs1 : solid (qy * w + qx) = 1) :
    computeAlphaBoundaryMask solid w h 8 (py * w + px) = 1 := by
  rw [computeAlphaBoundaryMask_eq_one, rowIdx_mod w py px hpx, rowIdx_div w py px hpx]
  refine ⟨hs0, ⟨(dx, dy), hd, ?_, ?_, ?_, ?_, ?_⟩⟩
  · omega
  · omega
  · omega
  · omega
  · have hidx : (((py : ℤ) + dy) * w + ((px : ℤ) + dx)).toNat = qy * w + qx := by
      rw [← hex, ← hey]
      have hcast : ((qy : ℤ)) * w + qx = ((qy * w + qx : ℕ) : ℤ) := by
        push_cast
        ring
      rw [hcast, Int.toNat_natCast]
    rw [hidx]
    exact hs1

/-- Claim C6 (amended): with `thickness = 1` and 8-connectivity, the
alpha-stroke mask on a fully-opaque rgba8 buffer is entirely zero; and on a
buffer of at least two pixels whose unique below-threshold pixel is
`(px, py)` (so that all its 8-neighbours are at or above the threshold),
exactly that pixel is marked.  The at-least-two-pixels amendment is forced by
`Dilib.alphaStroke_single_pixel_unmarked`: on a 1×1 buffer the transparent
pixel has no in-bounds neighbour, so no boundary seed exists and the mask is
empty. -/
theorem alphaStroke_thickness_one (img : ImageBuffer) (t : ℚ) :
    ((∀ p, p < img.width * img.height → t ≤ img.data (p * 4 + 3)) →
      ∀ i, i < img.width * img.height → computeAlphaStrokeMask img t 1 8 i = 0) ∧
    (2 ≤ img.width * img.height →
      ∀ px py, px < img.width → py < img.height →
        img.data ((py * img.width + px) * 4 + 3) < t →
        (∀ q, q < img.width * img.height → q ≠ py * img.width + px →
          t ≤ img.data (q * 4 + 3)) →
        (computeAlphaStrokeMask img t 1 8 (py * img.width + px) = 1 ∧
          ∀ j, j < img.width * img.height → j ≠ py * img.width + px →
            computeAlphaStrokeMask img t 1 8 j = 0)) := by
  have hmask : computeAlphaStrokeMask img t 1 8 =
      computeAlphaBoundaryMask (computeAlphaMask img t) img.width img.height 8 := rfl
  constructor
  · intro hall i hi
    rw [hmask]
    apply computeAlphaBoundaryMask_ne_one
    intro h1
    rw [computeAlphaBoundaryMask_eq_one] at h1
    obtain ⟨hs, _⟩ := h1
    unfold computeAlphaMask at hs
    rw [if_pos (hall i hi)] at hs
    cases hs
  · intro hcard px py hpx hpy htrans hsolid
    rw [hmask]
    have hsolidp : computeAlphaMask img t (py * img.width + px) = 0 := by
      unfold computeAlphaMask
      rw [if_neg (not_le.mpr htrans)]
    have hsolidq : ∀ qx qy, qx < img.width → qy < img.height → ¬ (qx = px ∧ qy = py) →
        computeAlphaMask img t (qy * img.width + qx) = 1 := by
      intro qx qy hqx hqy hne
      unfold computeAlphaMask
      rw [if_pos (hsolid (qy * img.width + qx) (rowIdx_lt _ _ _ _ hqx hqy)
        (rowIdx_inj img.width qx qy px py hqx hpx hne))]
    constructor
    · have hwh : 2 ≤ img.width ∨ (img.width = 1 ∧ 2 ≤ img.height) := by
        rcases Nat.lt_or_ge img.width 2 with h2 | h2
        · right
          have hw1 : img.width = 1 := by omega
          rw [hw1, Nat.one_mul] at hcard
          exact ⟨hw1, by omega⟩
        · left
          exact h2
      rcases hwh with h2w | ⟨h1w, h2h⟩
      · rcases Nat.eq_zero_or_pos px with h0 | hpos
        · exact computeAlphaBoundaryMask_one_of (computeAlphaMask img t) img.width img.height
            px py (px + 1) py 1 0 hpx hpy (by omega) hpy (by decide)
            (by push_cast; ring) (by push_cast; ring) hsolidp
            (hsolidq (px + 1) py (by omega) hpy (by omega))
        · exact computeAlphaBoundaryMask_one_of (computeAlphaMask img t) img.width img.height
            px py (px - 1) py (-1) 0 hpx hpy (by omega) hpy (by decide)
            (by omega) (by push_cast; ring) hsolidp
            (hsolidq (px - 1) py (by omega) hpy (by omega))
      · rcases Nat.eq_zero_or_pos py with h0 | hpos
        · exact computeAlphaBoundaryMask_one_of (computeAlphaMask img t) img.width img.height
            px py px (py + 1) 0 1 hpx hpy hpx (by omega) (by decide)
            (by push_cast; ring) (by push_cast; ring) hsolidp
            (hsolidq px (py + 1) hpx (by omega) (by omega))
        · exact computeAlphaBoundaryMask_one_of (computeAlphaMask img t) img.width img.height
            px py px (py - 1) 0 (-1) hpx hpy hpx (by omega) (by decide)
            (by push_cast; ring) (by omega) hsolidp
            (hsolidq px (py - 1) hpx (by omega) (by omega))
    · intro j hj hjne
      apply computeAlphaBoundaryMask_ne_one
      intro h1
      rw [computeAlphaBoundaryMask_eq_one] at h1
      obtain ⟨hs, _⟩ := h1
      unfold computeAlphaMask at hs
      rw [if_pos (hsolid j hj hjne)] at hs
      cases hs

/-- Concrete 1×1 rgba8 buffer whose single pixel is fully transparent. -/
def transparentOneByOne : ImageBuffer := ⟨1, 1, PixelFormat.rgba8, fun _ => 0⟩

/-- Counterexample for claim C6: on a 1×1 buffer whose unique pixel has alpha
0 (below the threshold 1) — so that the condition "all 8-connected
neighbours have alpha at or above the threshold" holds vacuously — the
alpha-stroke mask does not mark that pixel: there is no in-bounds solid
neighbour to seed from, so the mask is empty rather than marking exactly the
transparent pixel. -/
theorem alphaStroke_single_pixel_unmarked :
    transparentOneByOne.data (0 * 4 + 3) < 1 ∧
    computeAlphaStrokeMask transparentOneByOne 1 1 8 0 = 0 := by
  constructor
  · norm_num [transparentOneByOne]
  · with_unfolding_all decide

/-- Concrete 2×1 rgba8 buffer: pixel (0,0) transparent, pixel (1,0) opaque. -/
def twoPixelBuf : ImageBuffer :=
  ⟨2, 1, PixelFormat.rgba8, fun i => if i = 7 then 255 else 0⟩

/-- Witness for `Dilib.alphaStroke_thickness_one` at a concrete input: on the
2×1 buffer with a single transparent pixel at (0,0), the mask marks that
pixel. -/
theorem alphaStroke_thickness_one_witness :
    computeAlphaStrokeMask twoPixelBuf 1 1 8 (0 * twoPixelBuf.width + 0) = 1 :=
  ((alphaStroke_thickness_one twoPixelBuf 1).2 (by norm_num [twoPixelBuf]) 0 0
    (by norm_num [twoPixelBuf]) (by norm_num [twoPixelBuf])
    (by norm_num [twoPixelBuf])
    (fun q hq hne => by
      norm_num [twoPixelBuf] at hq ⊢
      interval_cases q
      · omega
      · norm_num)).1

/-! ### BFS reachability characterisation of `expandMask` (claim C7) -/

/-- Grid adjacency between cell indices: both in-bounds, and the target's
coordinates are the source's shifted by one of the connectivity offsets. -/
def gridAdj (w h conn : ℕ) (m n : ℕ) : Prop :=
  m < w * h ∧ n < w * h ∧ ∃ d ∈ getNeighborOffsets conn,
    ((n % w : ℕ) : ℤ) = ((m % w : ℕ) : ℤ) + d.1 ∧
    ((n / w : ℕ) : ℤ) = ((m / w : ℕ) : ℤ) + d.2

/-- A cell reachable from the seed set by a path of exactly `k` moves, each
move entering an allowed cell. -/
inductive ReachableWithin (w h conn : ℕ) (allowed : ℕ → Prop) (seeds : ℕ → Prop) :
    ℕ → ℕ → Prop
  | seed (i : ℕ) : i < w * h → seeds i → ReachableWithin w h conn allowed seeds 0 i
  | step (k m n : ℕ) : ReachableWithin w h conn allowed seeds k m → gridAdj w h conn m n →
      allowed n → ReachableWithin w h conn allowed seeds (k + 1) n

theorem neg_mem_offsets (conn : ℕ) (d : ℤ × ℤ) (hd : d ∈ getNeighborOffsets conn) :
    (-d.1, -d.2) ∈ getNeighborOffsets conn := by
  unfold getNeighborOffsets neighborOffsets4 neighborOffsets8 at *
  split_ifs at *
  · fin_cases hd <;> decide
  · fin_cases hd <;> decide

theorem coordIdx (w h : ℕ) (nx ny : ℤ) (h0x : 0 ≤ nx) (h0y : 0 ≤ ny)
    (hxw : nx < (w : ℤ)) (hyh : ny < (h : ℤ)) :
    (ny * w + nx).toNat < w * h ∧
      (((ny * w + nx).toNat % w : ℕ) : ℤ) = nx ∧
      (((ny * w + nx).toNat / w : ℕ) : ℤ) = ny := by
  lift nx to ℕ using h0x with a
  lift ny to ℕ using h0y with b
  have haw : a < w := by exact_mod_cast hxw
  have hbh : b < h := by exact_mod_cast hyh
  have hidx : ((b : ℤ) * w + a).toNat = b * w + a := by
    have hc : ((b : ℤ)) * w + a = ((b * w + a : ℕ) : ℤ) := by
      push_cast
      ring
    rw [hc, Int.toNat_natCast]
  rw [hidx]
  exact ⟨rowIdx_lt w h b a haw hbh, by rw [rowIdx_mod w b a haw],
    by rw [rowIdx_div w b a haw]⟩

theorem expandIter_iff (w h conn : ℕ) (allowedMask : Option (ℕ → ℕ)) (seedMask : ℕ → ℕ)
    (allowed : ℕ → Prop) (seeds : ℕ → Prop)
    (hallow : ∀ j, allowedOkB allowedMask j = true ↔ allowed j)
    (hseeds : ∀ j, seedMask j = 1 ↔ seeds j) (D : ℕ) :
    ∀ i, i < w * h →
      (((expandOnce w h conn allowedMask)^[D] (fun j => seedMask j == 1)) i = true ↔
        ∃ k ≤ D, ReachableWithin w h conn allowed seeds k i) := by
  induction D with
  | zero =>
    intro i hi
    simp only [Function.iterate_zero, id_eq, beq_iff_eq]
    constructor
    · intro h1
      exact ⟨0, le_refl 0, ReachableWithin.seed i hi ((hseeds i).mp h1)⟩
    · intro ⟨k, hk, hr⟩
      have hk0 : k = 0 := by omega
      subst hk0
      cases hr with
      | seed _ _ hs => exact (hseeds i).mpr hs
  | succ D ih =>
    intro i hi
    rw [Function.iterate_succ_apply']
    unfold expandOnce
    simp only [Bool.or_eq_true, Bool.and_eq_true, List.any_eq_true, decide_eq_true_eq]
    constructor
    · intro h1
      rcases h1 with hprev | ⟨⟨hin, hallowi⟩, d, hd, ⟨⟨⟨⟨h0x, h0y⟩, hxw⟩, hyh⟩, hcur⟩⟩
      · obtain ⟨k, hk, hr⟩ := (ih i hi).mp hprev
        exact ⟨k, by omega, hr⟩
      · obtain ⟨hmlt, hmx, hmy⟩ := coordIdx w h _ _ h0x h0y hxw hyh
        obtain ⟨k, hk, hr⟩ := (ih _ hmlt).mp hcur
        refine ⟨k + 1, by omega, ReachableWithin.step k _ i hr ?_ ((hallow i).mp hallowi)⟩
        refine ⟨hmlt, hi, (-d.1, -d.2), neg_mem_offsets conn d hd, ?_, ?_⟩
        · rw [hmx]
          ring
        · rw [hmy]
          ring
    · intro ⟨k, hk, hr⟩
      rcases Nat.lt_or_ge k (D + 1) with hlt | hge
      · exact Or.inl ((ih i hi).mpr ⟨k, by omega, hr⟩)
      · have hkD : k = D + 1 := by omega
        subst hkD
        cases hr with
        | step k m i hrm hadj halw =>
          right
          have hm : m < w * h := hadj.1
          have hprev := (ih m hm).mpr ⟨D, le_refl D, hrm⟩
          refine ⟨⟨hi, (hallow _).mpr halw⟩, ?_⟩
          obtain ⟨_, _, d, hd, hex, hey⟩ := hadj
          have hw : 0 < w := by
            rcases Nat.eq_zero_or_pos w with h0 | hpos
            · rw [h0] at hi
              simp at hi
            · exact hpos
          have hmx : 0 ≤ ((m % w : ℕ) : ℤ) := by positivity
          have hmxlt : ((m % w : ℕ) : ℤ) < (w : ℤ) := by
            exact_mod_cast Nat.mod_lt m hw
          have hmy : 0 ≤ ((m / w : ℕ) : ℤ) := by positivity
          have hmylt : ((m / w : ℕ) : ℤ) < (h : ℤ) := by
            have hdiv : m / w < h := by
              rw [Nat.div_lt_iff_lt_mul hw]
              rw [Nat.mul_comm w h] at hm
              exact hm
            exact_mod_cast hdiv
          refine ⟨(-d.1, -d.2), neg_mem_offsets conn d hd, ⟨⟨⟨⟨?_, ?_⟩, ?_⟩, ?_⟩, ?_⟩⟩
          · rw [hex]
            omega
          · rw [hey]
            omega
          · rw [hex]
            omega
          · rw [hey]
            omega
          · have hback : (((((i / w : ℕ) : ℤ) + -d.2)) * w + (((i % w : ℕ) : ℤ) + -d.1)).toNat
                = m := by
              rw [hex, hey]
              have hc : (((m / w : ℕ) : ℤ) + d.2 + -d.2) * w + (((m % w : ℕ) : ℤ) + d.1 + -d.1)
                  = ((m / w * w + m % w : ℕ) : ℤ) := by
                push_cast
                ring
              rw [hc, Int.toNat_natCast, Nat.mul_comm (m / w) w]
              exact Nat.div_add_mod m w
            rw [hback]
            exact hprev

theorem boundary_transparent (img : ImageBuffer) (t : ℚ) (conn q : ℕ)
    (h1 : computeAlphaBoundaryMask (computeAlphaMask img t) img.width img.height conn q = 1) :
    img.data (q * 4 + 3) < t := by
  rw [computeAlphaBoundaryMask_eq_one] at h1
  obtain ⟨hs, _⟩ := h1
  unfold computeAlphaMask at hs
  by_contra hcon
  rw [not_lt] at hcon
  rw [if_pos hcon] at hs
  cases hs

theorem ite_nat_one_eq_one (b : Bool) : (if b then (1 : ℕ) else 0) = 1 ↔ b = true := by
  cases b <;> simp

/-- Claim C7: for every rgba8 buffer, alpha threshold, connectivity and
thickness ≥ 1, every pixel marked by the alpha-stroke mask has alpha strictly
below the threshold, and an in-bounds pixel is marked exactly when it is
reachable from an alpha-boundary seed by a path of non-solid pixels of BFS
depth at most `thickness - 1`. -/
theorem computeAlphaStrokeMask_char (img : ImageBuffer) (t : ℚ) (thickness connectivity : ℕ)
    (hth : 1 ≤ thickness) (hconn : connectivity = 4 ∨ connectivity = 8) (q : ℕ)
    (hq : q < img.width * img.height) :
    (computeAlphaStrokeMask img t thickness connectivity q = 1 →
      img.data (q * 4 + 3) < t) ∧
    (computeAlphaStrokeMask img t thickness connectivity q = 1 ↔
      ∃ k ≤ thickness - 1,
        ReachableWithin img.width img.height connectivity
          (fun j => img.data (j * 4 + 3) < t)
          (fun j => computeAlphaBoundaryMask (computeAlphaMask img t) img.width
            img.height connectivity j = 1) k q) := by
  by_cases hth1 : thickness ≤ 1
  · have hmask : computeAlphaStrokeMask img t thickness connectivity =
        computeAlphaBoundaryMask (computeAlphaMask img t) img.width img.height connectivity := by
      unfold computeAlphaStrokeMask
      rw [if_pos hth1]
    have hd0 : thickness - 1 = 0 := by omega
    refine ⟨?_, ?_⟩
    · intro h1
      rw [hmask] at h1
      exact boundary_transparent img t connectivity q h1
    · rw [hmask, hd0]
      constructor
      · intro h1
        exact ⟨0, le_refl 0, ReachableWithin.seed q hq h1⟩
      · intro ⟨k, hk, hr⟩
        have hk0 : k = 0 := by omega
        subst hk0
        cases hr with
        | seed _ _ hs => exact hs
  · have hmask : computeAlphaStrokeMask img t thickness connectivity =
        expandMask
          (computeAlphaBoundaryMask (computeAlphaMask img t) img.width img.height connectivity)
          img.width img.height thickness connectivity
          (some (fun i => if computeAlphaMask img t i = 0 then 1 else 0)) := by
      unfold computeAlphaStrokeMask
      rw [if_neg hth1]
    have hallow : ∀ j,
        allowedOkB (some (fun i => if computeAlphaMask img t i = 0 then 1 else 0)) j = true ↔
          img.data (j * 4 + 3) < t := by
      intro j
      unfold allowedOkB computeAlphaMask
      rw [bne_iff_ne]
      simp only
      constructor
      · intro hj
        by_contra hcon
        rw [not_lt] at hcon
        rw [if_pos hcon] at hj
        norm_num at hj
      · intro hj
        rw [if_neg (not_le.mpr hj)]
        norm_num
    have hiff : computeAlphaStrokeMask img t thickness connectivity q = 1 ↔
        ∃ k ≤ thickness - 1,
          ReachableWithin img.width img.height connectivity
            (fun j => img.data (j * 4 + 3) < t)
            (fun j => computeAlphaBoundaryMask (computeAlphaMask img t) img.width
              img.height connectivity j = 1) k q := by
      rw [hmask]
      show (if ((expandOnce img.width img.height connectivity
          (some (fun i => if computeAlphaMask img t i = 0 then 1 else 0)))^[thickness - 1]
          (fun j => computeAlphaBoundaryMask (computeAlphaMask img t) img.width img.height
            connectivity j == 1)) q then 1 else 0) = 1 ↔ _
      rw [ite_nat_one_eq_one]
      exact expandIter_iff img.width img.height connectivity _ _ _ _ hallow
        (fun j => Iff.rfl) (thickness - 1) q hq
    refine ⟨?_, hiff⟩
    intro h1
    obtain ⟨k, hk, hr⟩ := hiff.mp h1
    cases hr with
    | seed _ _ hs => exact boundary_transparent img t connectivity q hs
    | step _ _ _ _ _ halw => exact halw

/-- Witness for `Dilib.computeAlphaStrokeMask_char` at a concrete input: the
2×1 one-transparent-pixel buffer, threshold 1, thickness 2, 8-connectivity,
at cell 0. -/
theorem computeAlphaStrokeMask_char_witness :
    (computeAlphaStrokeMask twoPixelBuf 1 2 8 0 = 1 →
      twoPixelBuf.data (0 * 4 + 3) < 1) ∧
    (computeAlphaStrokeMask twoPixelBuf 1 2 8 0 = 1 ↔
      ∃ k ≤ 2 - 1,
        ReachableWithin twoPixelBuf.width twoPixelBuf.height 8
          (fun j => twoPixelBuf.data (j * 4 + 3) < 1)
          (fun j => computeAlphaBoundaryMask (computeAlphaMask twoPixelBuf 1) twoPixelBuf.width
            twoPixelBuf.height 8 j = 1) k 0) :=
  computeAlphaStrokeMask_char twoPixelBuf 1 2 8 (by norm_num) (Or.inr rfl) 0
    (by norm_num [twoPixelBuf])

/-! ### Contrast masks (nodes.ts)

`computeContrastEdgeMask` scans every cell and, for each of its
right/down (and, with 8-connectivity, down-right/down-left) pairs whose
squared RGB distance reaches `threshold²`, marks **both** cells of the pair.
A finished-array cell is therefore marked exactly when one of the eight
pair-sites below fires: the four in which the cell is the scanned cell and
the four in which it is the partner (each partner site carries the partner
cell's loop-bound conditions). -/

/-- Squared RGB distance between the pixels at two coordinate pairs, as
computed from the raw rgba8 storage (`dr*dr + dg*dg + db*db`). -/
def contrastDiff (img : ImageBuffer) (x y u v : ℕ) : ℚ :=
  let b1 := (y * img.width + x) * 4
  let b2 := (v * img.width + u) * 4
  (img.data b1 - img.data b2) * (img.data b1 - img.data b2) +
    (img.data (b1 + 1) - img.data (b2 + 1)) * (img.data (b1 + 1) - img.data (b2 + 1)) +
    (img.data (b1 + 2) - img.data (b2 + 2)) * (img.data (b1 + 2) - img.data (b2 + 2))

/-- The eight marking sites of `computeContrastEdgeMask` that can set the
cell `(x, y)`: as the scanned cell of a right/down/down-right/down-left pair,
or as the partner of the mirrored site. -/
def edgeCondAt (img : ImageBuffer) (threshold : ℚ) (connectivity x y : ℕ) : Prop :=
  (x + 1 < img.width ∧ threshold * threshold ≤ contrastDiff img x y (x + 1) y) ∨
  (1 ≤ x ∧ threshold * threshold ≤ contrastDiff img (x - 1) y x y) ∨
  (y + 1 < img.height ∧ threshold * threshold ≤ contrastDiff img x y x (y + 1)) ∨
  (1 ≤ y ∧ threshold * threshold ≤ contrastDiff img x (y - 1) x y) ∨
  (connectivity = 8 ∧ y + 1 < img.height ∧ x + 1 < img.width ∧
    threshold * threshold ≤ contrastDiff img x y (x + 1) (y + 1)) ∨
  (connectivity = 8 ∧ 1 ≤ y ∧ 1 ≤ x ∧
    threshold * threshold ≤ contrastDiff img (x - 1) (y - 1) x y) ∨
  (connectivity = 8 ∧ y + 1 < img.height ∧ 1 ≤ x ∧
    threshold * threshold ≤ contrastDiff img x y (x - 1) (y + 1)) ∨
  (connectivity = 8 ∧ 1 ≤ y ∧ x + 1 < img.width ∧
    threshold * threshold ≤ contrastDiff img (x + 1) (y - 1) x y)

instance (img : ImageBuffer) (threshold : ℚ) (connectivity x y : ℕ) :
    Decidable (edgeCondAt img threshold connectivity x y) := by
  unfold edgeCondAt
  infer_instance

/-- Model of `computeContrastEdgeMask` from nodes.ts, as the per-cell
characterisation of the finished array. -/
def computeContrastEdgeMask (img : ImageBuffer) (threshold : ℚ) (connectivity : ℕ) :
    ℕ → ℕ :=
  fun index =>
    if edgeCondAt img threshold connectivity (index % img.width) (index / img.width)
    then 1 else 0

/-- Scanline state of `computeContrastShapeMask` for row `y` before
processing cell `x`: the `inside` parity flag and the previous cell's edge
flag (`lastEdge`), starting from `(false, false)` at the row start. -/
def scanState (edge : ℕ → ℕ) (w y : ℕ) : ℕ → Bool × Bool
  | 0 => (false, false)
  | x + 1 =>
    let s := scanState edge w y x
    let e := edge (y * w + x) == 1
    ((if e && !s.2 then !s.1 else s.1), e)

/-- Model of `computeContrastShapeMask` from nodes.ts: per-row scanline
parity fill over the contrast edge mask — `inside` toggles on each rising
edge, and a cell is filled when `inside` (after the toggle) or the cell is
itself an edge. -/
def computeContrastShapeMask (img : ImageBuffer) (threshold : ℚ) (connectivity : ℕ) :
    ℕ → ℕ :=
  let edge := computeContrastEdgeMask img threshold connectivity
  fun index =>
    let w := img.width
    let x := index % w
    let y := index / w
    let s := scanState edge w y x
    let e := edge (y * w + x) == 1
    if (if e && !s.2 then !s.1 else s.1) || e then 1 else 0

/-- Synthetic rgba8 image: an axis-aligned `s × s` square of colour `cS` at
`(x0, y0)` over a uniform background `cB`. -/
def squareImage (w h x0 y0 s : ℕ) (cB cS : Px) : ImageBuffer :=
  ⟨w, h, PixelFormat.rgba8, fun i =>
    if i < w * h * 4 then
      let p := i / 4
      let x := p % w
      let y := p / w
      let c := if x0 ≤ x ∧ x < x0 + s ∧ y0 ≤ y ∧ y < y0 + s then cS else cB
      if i % 4 = 0 then c.r else if i % 4 = 1 then c.g else if i % 4 = 2 then c.b else c.a
    else 0⟩

/-- Counterexample for claim C8: with threshold 32 and the default
8-connectivity, (a) a white 1×1 square at (1,1) on a black 5×5 background
produces a fill mask that marks the background cell (4,0) — the edge mask
marks both sides of each contrast edge and the scanline flood runs to the
right image border on the row above the square — and (b) with a white 3×3
square flush against the left border at (0,1), the strictly interior square
pixel (1,2) is **not** marked, because the square's left wall is missing
from the edge mask and the row parity never turns on before the right wall. -/
theorem contrastShape_not_exact :
    computeContrastShapeMask (squareImage 5 5 1 1 1 ⟨0, 0, 0, 255⟩ ⟨255, 255, 255, 255⟩)
      32 8 4 = 1 ∧
    computeContrastShapeMask (squareImage 5 5 0 1 3 ⟨0, 0, 0, 255⟩ ⟨255, 255, 255, 255⟩)
      32 8 11 = 0 := by
  constructor
  · with_unfolding_all decide
  · with_unfolding_all decide

/-- Squared RGB distance between two pixel values. -/
def contrastD2 (p q : Px) : ℚ :=
  (p.r - q.r) * (p.r - q.r) + (p.g - q.g) * (p.g - q.g) + (p.b - q.b) * (p.b - q.b)

theorem contrastDiff_nonneg (img : ImageBuffer) (x y u v : ℕ) :
    0 ≤ contrastDiff img x y u v := by
  unfold contrastDiff
  dsimp only
  have h1 := mul_self_nonneg
    (img.data ((y * img.width + x) * 4) - img.data ((v * img.width + u) * 4))
  have h2 := mul_self_nonneg
    (img.data ((y * img.width + x) * 4 + 1) - img.data ((v * img.width + u) * 4 + 1))
  have h3 := mul_self_nonneg
    (img.data ((y * img.width + x) * 4 + 2) - img.data ((v * img.width + u) * 4 + 2))
  linarith

theorem idx4 (w h px py c : ℕ) (hpx : px < w) (hpy : py < h) (hc : c < 4) :
    (py * w + px) * 4 + c < w * h * 4 ∧ ((py * w + px) * 4 + c) / 4 = py * w + px ∧
      ((py * w + px) * 4 + c) % 4 = c := by
  have hpix := rowIdx_lt w h py px hpx hpy
  refine ⟨?_, ?_, ?_⟩
  · have h1 : (py * w + px) * 4 + c < (py * w + px + 1) * 4 := by
      rw [Nat.add_one_mul]
      omega
    have h2 : (py * w + px + 1) * 4 ≤ w * h * 4 := Nat.mul_le_mul_right _ (by omega)
    omega
  · rw [Nat.mul_comm (py * w + px) 4, Nat.mul_add_div (by norm_num)]
    omega
  · rw [Nat.mul_comm (py * w + px) 4, Nat.mul_add_mod]
    omega

theorem squareImage_data (w h x0 y0 s : ℕ) (cB cS : Px) (px py c : ℕ)
    (hpx : px < w) (hpy : py < h) (hc : c < 4) :
    (squareImage w h x0 y0 s cB cS).data ((py * w + px) * 4 + c) =
      (if c = 0 then (if x0 ≤ px ∧ px < x0 + s ∧ y0 ≤ py ∧ py < y0 + s then cS else cB).r
       else if c = 1 then (if x0 ≤ px ∧ px < x0 + s ∧ y0 ≤ py ∧ py < y0 + s then cS else cB).g
       else if c = 2 then (if x0 ≤ px ∧ px < x0 + s ∧ y0 ≤ py ∧ py < y0 + s then cS else cB).b
       else (if x0 ≤ px ∧ px < x0 + s ∧ y0 ≤ py ∧ py < y0 + s then cS else cB).a) := by
  obtain ⟨hin, hdiv, hmod⟩ := idx4 w h px py c hpx hpy hc
  unfold squareImage
  simp only
  rw [if_pos hin, hdiv, hmod, rowIdx_mod w py px hpx, rowIdx_div w py px hpx]

theorem squareImage_data0 (w h x0 y0 s : ℕ) (cB cS : Px) (px py : ℕ)
    (hpx : px < w) (hpy : py < h) :
    (squareImage w h x0 y0 s cB cS).data ((py * w + px) * 4) =
      (if x0 ≤ px ∧ px < x0 + s ∧ y0 ≤ py ∧ py < y0 + s then cS else cB).r := by
  have h := squareImage_data w h x0 y0 s cB cS px py 0 hpx hpy (by norm_num)
  norm_num at h
  exact h

theorem squareImage_data1 (w h x0 y0 s : ℕ) (cB cS : Px) (px py : ℕ)
    (hpx : px < w) (hpy : py < h) :
    (squareImage w h x0 y0 s cB cS).data ((py * w + px) * 4 + 1) =
      (if x0 ≤ px ∧ px < x0 + s ∧ y0 ≤ py ∧ py < y0 + s then cS else cB).g := by
  have h := squareImage_data w h x0 y0 s cB cS px py 1 hpx hpy (by norm_num)
  norm_num at h
  exact h

theorem squareImage_data2 (w h x0 y0 s : ℕ) (cB cS : Px) (px py : ℕ)
    (hpx : px < w) (hpy : py < h) :
    (squareImage w h x0 y0 s cB cS).data ((py * w + px) * 4 + 2) =
      (if x0 ≤ px ∧ px < x0 + s ∧ y0 ≤ py ∧ py < y0 + s then cS else cB).b := by
  have h := squareImage_data w h x0 y0 s cB cS px py 2 hpx hpy (by norm_num)
  norm_num at h
  exact h

theorem squareImage_diff (w h x0 y0 s : ℕ) (cB cS : Px) (px py qx qy : ℕ)
    (hpx : px < w) (hpy : py < h) (hqx : qx < w) (hqy : qy < h) :
    contrastDiff (squareImage w h x0 y0 s cB cS) px py qx qy =
      if ((x0 ≤ px ∧ px < x0 + s ∧ y0 ≤ py ∧ py < y0 + s) ↔
          (x0 ≤ qx ∧ qx < x0 + s ∧ y0 ≤ qy ∧ qy < y0 + s))
      then 0 else contrastD2 cB cS := by
  unfold contrastDiff
  have hww : (squareImage w h x0 y0 s cB cS).width = w := rfl
  simp only [hww]
  rw [squareImage_data0 w h x0 y0 s cB cS px py hpx hpy,
    squareImage_data0 w h x0 y0 s cB cS qx qy hqx hqy,
    squareImage_data1 w h x0 y0 s cB cS px py hpx hpy,
    squareImage_data1 w h x0 y0 s cB cS qx qy hqx hqy,
    squareImage_data2 w h x0 y0 s cB cS px py hpx hpy,
    squareImage_data2 w h x0 y0 s cB cS qx qy hqx hqy]
  by_cases h1 : x0 ≤ px ∧ px < x0 + s ∧ y0 ≤ py ∧ py < y0 + s <;>
    by_cases h2 : x0 ≤ qx ∧ qx < x0 + s ∧ y0 ≤ qy ∧ qy < y0 + s
  · rw [if_pos h1, if_pos h2, if_pos (iff_of_true h1 h2)]
    ring
  · rw [if_pos h1, if_neg h2, if_neg (by simp [h1, h2])]
    unfold contrastD2
    ring
  · rw [if_neg h1, if_pos h2, if_neg (by simp [h1, h2])]
    unfold contrastD2
    ring
  · rw [if_neg h1, if_neg h2, if_pos (iff_of_false h1 h2)]
    ring

theorem contrastEdge_at (img : ImageBuffer) (t : ℚ) (conn x y : ℕ) (hx : x < img.width) :
    computeContrastEdgeMask img t conn (y * img.width + x) =
      if edgeCondAt img t conn x y then 1 else 0 := by
  unfold computeContrastEdgeMask
  rw [rowIdx_mod _ _ _ hx, rowIdx_div _ _ _ hx]

theorem contrastShape_at (img : ImageBuffer) (t : ℚ) (conn x y : ℕ) (hx : x < img.width) :
    computeContrastShapeMask img t conn (y * img.width + x) =
      (if (if (computeContrastEdgeMask img t conn (y * img.width + x) == 1) &&
            !(scanState (computeContrastEdgeMask img t conn) img.width y x).2 then
            !(scanState (computeContrastEdgeMask img t conn) img.width y x).1
          else (scanState (computeContrastEdgeMask img t conn) img.width y x).1) ||
          (computeContrastEdgeMask img t conn (y * img.width + x) == 1)
        then 1 else 0) := by
  unfold computeContrastShapeMask
  simp only
  rw [rowIdx_mod _ _ _ hx, rowIdx_div _ _ _ hx]

theorem fill_of_edge (img : ImageBuffer) (t : ℚ) (conn x y : ℕ) (hx : x < img.width)
    (he : computeContrastEdgeMask img t conn (y * img.width + x) = 1) :
    computeContrastShapeMask img t conn (y * img.width + x) = 1 := by
  rw [contrastShape_at img t conn x y hx, he]
  simp

theorem fill_of_inside (img : ImageBuffer) (t : ℚ) (conn x y : ℕ) (hx : x < img.width)
    (hin : (scanState (computeContrastEdgeMask img t conn) img.width y x).1 = true) :
    computeContrastShapeMask img t conn (y * img.width + x) = 1 := by
  rw [contrastShape_at img t conn x y hx]
  cases he : (computeContrastEdgeMask img t conn (y * img.width + x) == 1) <;>
    simp [he, hin]

theorem scanZero (edge : ℕ → ℕ) (w y : ℕ) (n : ℕ)
    (h : ∀ k, k < n → edge (y * w + k) = 0) :
    scanState edge w y n = (false, false) := by
  induction n with
  | zero => rfl
  | succ n ih =>
    unfold scanState
    rw [ih (fun k hk => h k (by omega)), h n (by omega)]
    simp

theorem scanTrue (edge : ℕ → ℕ) (w y x0 : ℕ) (hx0 : 1 ≤ x0)
    (h0 : ∀ k, k + 1 < x0 → edge (y * w + k) = 0)
    (he1 : edge (y * w + (x0 - 1)) = 1) (he2 : edge (y * w + x0) = 1) :
    ∀ n, x0 + 1 ≤ n → (∀ k, x0 < k → k < n → edge (y * w + k) = 0) →
      (scanState edge w y n).1 = true := by
  have hbase : scanState edge w y (x0 + 1) = (true, true) := by
    obtain ⟨m, rfl⟩ : ∃ m, x0 = m + 1 := ⟨x0 - 1, by omega⟩
    have hs1 : scanState edge w y (m + 1) = (true, true) := by
      unfold scanState
      rw [scanZero edge w y m (fun k hk => h0 k (by omega))]
      have he1' : edge (y * w + m) = 1 := by
        have hm : m + 1 - 1 = m := by omega
        rwa [hm] at he1
      rw [he1']
      simp
    unfold scanState
    rw [hs1, he2]
    simp
  intro n
  induction n with
  | zero => omega
  | succ n ih =>
    intro hn hmid
    rcases Nat.lt_or_ge n (x0 + 1) with hlt | hge
    · have heq : n + 1 = x0 + 1 := by omega
      rw [heq, hbase]
    · have hs := ih (by omega) (fun k h1 h2 => hmid k h1 (by omega))
      unfold scanState
      rw [hmid n (by omega) (by omega)]
      simp only [Nat.zero_eq]
      simp [hs]

/-- Claim C8 (amended): for a solid `s × s` square of colour `cS` on a uniform
background `cB` whose squared RGB contrast meets `threshold²`, with the default
8-connectivity, every pixel of the square is marked in the contrast shape mask,
provided the square does not touch the left image border (`1 ≤ x0`): the
square's top/bottom boundary rows and left/right walls land in the edge mask,
and on interior rows the scanline parity turns on at the square's left wall and
stays on across the square. (Exactness fails in general: background cells can
also be marked, and a square flush against the left border can lose its
interior — see the counterexample.) -/
theorem contrastShape_fills_square (w h x0 y0 s : ℕ) (cB cS : Px) (threshold : ℚ)
    (hx0 : 1 ≤ x0) (hxw : x0 + s ≤ w) (hyh : y0 + s ≤ h) (hs1 : 1 ≤ s)
    (hcontrast : threshold * threshold ≤ contrastD2 cB cS) (x y : ℕ)
    (hxl : x0 ≤ x) (hxr : x < x0 + s) (hyl : y0 ≤ y) (hyr : y < y0 + s) :
    computeContrastShapeMask (squareImage w h x0 y0 s cB cS) threshold 8
      (y * w + x) = 1 := by
  set img := squareImage w h x0 y0 s cB cS with himg
  have hw : img.width = w := by rw [himg]; rfl
  have hh2 : img.height = h := by rw [himg]; rfl
  have hx' : x < w := by omega
  have hy' : y < h := by omega
  have hdiff : ∀ px py qx qy : ℕ, px < w → py < h → qx < w → qy < h →
      contrastDiff img px py qx qy =
        if ((x0 ≤ px ∧ px < x0 + s ∧ y0 ≤ py ∧ py < y0 + s) ↔
            (x0 ≤ qx ∧ qx < x0 + s ∧ y0 ≤ qy ∧ qy < y0 + s))
        then 0 else contrastD2 cB cS := by
    intro px py qx qy b1 b2 b3 b4
    rw [himg]
    exact squareImage_diff w h x0 y0 s cB cS px py qx qy b1 b2 b3 b4
  have hEdge : ∀ a b : ℕ, a < w →
      (edgeCondAt img threshold 8 a b →
        computeContrastEdgeMask img threshold 8 (b * w + a) = 1) ∧
      (¬ edgeCondAt img threshold 8 a b →
        computeContrastEdgeMask img threshold 8 (b * w + a) = 0) := by
    intro a b ha
    have hc := contrastEdge_at img threshold 8 a b (by rw [hw]; exact ha)
    rw [hw] at hc
    exact ⟨fun he => by rw [hc, if_pos he], fun he => by rw [hc, if_neg he]⟩
  rcases le_or_lt (threshold * threshold) 0 with hle0 | hpos
  · -- degenerate threshold: every cell with any neighbour is an edge
    have hE : edgeCondAt img threshold 8 x y := by
      unfold edgeCondAt
      rcases Nat.lt_or_ge (x + 1) w with hxx | hxx
      · exact Or.inl ⟨by rw [hw]; exact hxx,
          le_trans hle0 (contrastDiff_nonneg img x y (x + 1) y)⟩
      · exact Or.inr (Or.inl ⟨by omega,
          le_trans hle0 (contrastDiff_nonneg img (x - 1) y x y)⟩)
    rw [← hw]
    exact fill_of_edge img threshold 8 x y (by rw [hw]; exact hx')
      (by rw [hw]; exact (hEdge x y hx').1 hE)
  · by_cases hrTB : (y = y0 ∧ 1 ≤ y0) ∨ (y = y0 + s - 1 ∧ y0 + s < h)
    · -- top/bottom boundary row: the vertical pair at (x, y) fires
      have hE : edgeCondAt img threshold 8 x y := by
        unfold edgeCondAt
        rcases hrTB with ⟨hyy0, hy01⟩ | ⟨hyTop, hhb⟩
        · refine Or.inr (Or.inr (Or.inr (Or.inl ⟨by omega, ?_⟩)))
          rw [hdiff x (y - 1) x y hx' (by omega) hx' hy', if_neg (by omega)]
          exact hcontrast
        · refine Or.inr (Or.inr (Or.inl ⟨by rw [hh2]; omega, ?_⟩))
          rw [hdiff x y x (y + 1) hx' hy' hx' (by omega), if_neg (by omega)]
          exact hcontrast
      rw [← hw]
      exact fill_of_edge img threshold 8 x y (by rw [hw]; exact hx')
        (by rw [hw]; exact (hEdge x y hx').1 hE)
    · -- interior row of the square
      rw [not_or] at hrTB
      obtain ⟨hnr1, hnr2⟩ := hrTB
      have hsame : ∀ px py qx qy : ℕ, px < w → py < h → qx < w → qy < h →
          ((x0 ≤ px ∧ px < x0 + s ∧ y0 ≤ py ∧ py < y0 + s) ↔
           (x0 ≤ qx ∧ qx < x0 + s ∧ y0 ≤ qy ∧ qy < y0 + s)) →
          ¬ (threshold * threshold ≤ contrastDiff img px py qx qy) := by
        intro px py qx qy b1 b2 b3 b4 hiff hle
        rw [hdiff px py qx qy b1 b2 b3 b4, if_pos hiff] at hle
        exact absurd hle (not_le.mpr hpos)
      by_cases hxx0 : x = x0
      · -- left wall: the pair with the background cell to the left fires
        have hE : edgeCondAt img threshold 8 x y := by
          unfold edgeCondAt
          refine Or.inr (Or.inl ⟨by omega, ?_⟩)
          rw [hdiff (x - 1) y x y (by omega) hy' hx' hy', if_neg (by omega)]
          exact hcontrast
        rw [← hw]
        exact fill_of_edge img threshold 8 x y (by rw [hw]; exact hx')
          (by rw [hw]; exact (hEdge x y hx').1 hE)
      · by_cases hxlast : x + 1 = x0 + s ∧ x0 + s < w
        · -- right wall with background to the right
          have hE : edgeCondAt img threshold 8 x y := by
            unfold edgeCondAt
            refine Or.inl ⟨by rw [hw]; omega, ?_⟩
            rw [hdiff x y (x + 1) y hx' hy' (by omega) hy', if_neg (by omega)]
            exact hcontrast
          rw [← hw]
          exact fill_of_edge img threshold 8 x y (by rw [hw]; exact hx')
            (by rw [hw]; exact (hEdge x y hx').1 hE)
        · -- strictly inside the row: parity is already on when the scan reaches x
          have hE_left : ∀ k, k + 1 < x0 →
              computeContrastEdgeMask img threshold 8 (y * w + k) = 0 := by
            intro k hk
            refine (hEdge k y (by omega)).2 ?_
            intro hc
            unfold edgeCondAt at hc
            rcases hc with hp | hp | hp | hp | hp | hp | hp | hp
            · exact hsame k y (k + 1) y (by omega) hy' (by omega) hy' (by omega) hp.2
            · exact hsame (k - 1) y k y (by omega) hy' (by omega) hy' (by omega) hp.2
            · have hb : y + 1 < h := by rw [← hh2]; exact hp.1
              exact hsame k y k (y + 1) (by omega) hy' (by omega) (by omega)
                (by omega) hp.2
            · exact hsame k (y - 1) k y (by omega) (by omega) (by omega) hy'
                (by omega) hp.2
            · have hb : y + 1 < h := by rw [← hh2]; exact hp.2.1
              exact hsame k y (k + 1) (y + 1) (by omega) hy' (by omega) (by omega)
                (by omega) hp.2.2.2
            · exact hsame (k - 1) (y - 1) k y (by omega) (by omega) (by omega) hy'
                (by omega) hp.2.2.2
            · have hb : y + 1 < h := by rw [← hh2]; exact hp.2.1
              exact hsame k y (k - 1) (y + 1) (by omega) hy' (by omega) (by omega)
                (by omega) hp.2.2.2
            · exact hsame (k + 1) (y - 1) k y (by omega) (by omega) (by omega) hy'
                (by omega) hp.2.2.2
          have hE_mid : ∀ k, x0 < k → k + 1 < x0 + s →
              computeContrastEdgeMask img threshold 8 (y * w + k) = 0 := by
            intro k hk1 hk2
            refine (hEdge k y (by omega)).2 ?_
            intro hc
            unfold edgeCondAt at hc
            rcases hc with hp | hp | hp | hp | hp | hp | hp | hp
            · exact hsame k y (k + 1) y (by omega) hy' (by omega) hy' (by omega) hp.2
            · exact hsame (k - 1) y k y (by omega) hy' (by omega) hy' (by omega) hp.2
            · have hb : y + 1 < h := by rw [← hh2]; exact hp.1
              exact hsame k y k (y + 1) (by omega) hy' (by omega) (by omega)
                (by omega) hp.2
            · exact hsame k (y - 1) k y (by omega) (by omega) (by omega) hy'
                (by omega) hp.2
            · have hb : y + 1 < h := by rw [← hh2]; exact hp.2.1
              exact hsame k y (k + 1) (y + 1) (by omega) hy' (by omega) (by omega)
                (by omega) hp.2.2.2
            · exact hsame (k - 1) (y - 1) k y (by omega) (by omega) (by omega) hy'
                (by omega) hp.2.2.2
            · have hb : y + 1 < h := by rw [← hh2]; exact hp.2.1
              exact hsame k y (k - 1) (y + 1) (by omega) hy' (by omega) (by omega)
                (by omega) hp.2.2.2
            · exact hsame (k + 1) (y - 1) k y (by omega) (by omega) (by omega) hy'
                (by omega) hp.2.2.2
          have hE_x0m1 : edgeCondAt img threshold 8 (x0 - 1) y := by
            unfold edgeCondAt
            refine Or.inl ⟨by rw [hw]; omega, ?_⟩
            rw [hdiff (x0 - 1) y (x0 - 1 + 1) y (by omega) hy' (by omega) hy',
              if_neg (by omega)]
            exact hcontrast
          have hE_x0 : edgeCondAt img threshold 8 x0 y := by
            unfold edgeCondAt
            refine Or.inr (Or.inl ⟨hx0, ?_⟩)
            rw [hdiff (x0 - 1) y x0 y (by omega) hy' (by omega) hy',
              if_neg (by omega)]
            exact hcontrast
          have hE1 := (hEdge (x0 - 1) y (by omega)).1 hE_x0m1
          have hE2 := (hEdge x0 y (by omega)).1 hE_x0
          have hscan : (scanState (computeContrastEdgeMask img threshold 8) w y x).1
              = true := by
            refine scanTrue (computeContrastEdgeMask img threshold 8) w y x0 hx0
              hE_left hE1 hE2 x (by omega) ?_
            intro k hk1 hk2
            exact hE_mid k hk1 (by omega)
          rw [← hw]
          exact fill_of_inside img threshold 8 x y (by rw [hw]; exact hx')
            (by rw [hw]; exact hscan)

/-- Witness for the amended C8: a 2×2 white square at (1,1) on a black 4×4
background with threshold 32 has its square pixel (2,2) marked. -/
theorem contrastShape_fills_square_witness :
    computeContrastShapeMask (squareImage 4 4 1 1 2 ⟨0, 0, 0, 255⟩ ⟨255, 255, 255, 255⟩)
      32 8 (2 * 4 + 2) = 1 :=
  contrastShape_fills_square 4 4 1 1 2 ⟨0, 0, 0, 255⟩ ⟨255, 255, 255, 255⟩ 32
    (by norm_num) (by norm_num) (by norm_num) (by norm_num)
    (by with_unfolding_all decide) 2 2
    (by norm_num) (by norm_num) (by norm_num) (by norm_num)

/-! ### Gaussian blur (nodes.ts)

`gaussianBlurRgba8` runs a horizontal then a vertical 1-D pass with the
normalised 1-D Gaussian of `buildGaussianKernel1D`; the gaussian-blur node's
non-rgba8 fallback convolves with the unnormalised 2-D kernel of
`buildGaussianKernel` and divides by the kernel sum.  `Math.exp` is embedded
as `Real.exp` (float arithmetic idealised over ℝ).  The source loop
`for k = -radius .. radius` indexing `kernel[k + radius]` is enumerated as
`k = j - radius` for `j ∈ range dimension`, matching the array layout. -/

/-- Unnormalised entries of `buildGaussianKernel1D` from nodes.ts in array
order: entry `j` is `exp(-(j-radius)²/(2σ'²))` with the `sigma <= 0 ? 1 : sigma`
guard. -/
noncomputable def gauss1Draw (radius : ℕ) (sigma : ℝ) (j : ℕ) : ℝ :=
  Real.exp (-((((j : ℤ) - (radius : ℤ)) : ℝ) * (((j : ℤ) - (radius : ℤ)) : ℝ)) /
    (2 * (if sigma ≤ 0 then 1 else sigma) * (if sigma ≤ 0 then 1 else sigma)))

/-- Model of `buildGaussianKernel1D` from nodes.ts: the pushed values divided
by their sum (`kernel.map(value => value / sum)`), with `radius = size / 2`. -/
noncomputable def buildGaussianKernel1D (size : ℕ) (sigma : ℝ) (j : ℕ) : ℝ :=
  gauss1Draw (size / 2) sigma j / ∑ m ∈ Finset.range size, gauss1Draw (size / 2) sigma m

/-- Model of `buildGaussianKernel` from nodes.ts (the 2-D kernel, no sigma
guard), offset-indexed `(ky, kx)` as consumed by the convolution model. -/
noncomputable def buildGaussianKernel (sigma : ℝ) : ℤ → ℤ → ℝ :=
  fun ky kx =>
    Real.exp (-((kx : ℝ) * (kx : ℝ) + (ky : ℝ) * (ky : ℝ)) / (2 * sigma * sigma))

/-- Sum of all entries of the 2-D Gaussian kernel: the divisor picked by
`createConvolutionNode` with normalisation on (the sum of positive
exponentials is nonzero, so the `sum === 0 ? 1` fallback never fires). -/
noncomputable def gaussKernelSum (size radius : ℕ) (sigma : ℝ) : ℝ :=
  ∑ ky ∈ Finset.range size, ∑ kx ∈ Finset.range size,
    buildGaussianKernel sigma ((ky : ℤ) - (radius : ℤ)) ((kx : ℤ) - (radius : ℤ))

/-- Horizontal pass of `gaussianBlurRgba8`: the `Float32Array` temp buffer,
modelled exactly over ℝ, holding the 1-D kernel applied along each row with
edge clamping. -/
noncomputable def gaussHorizontal (img : ImageBuffer) (dimension radius : ℕ)
    (sigma : ℝ) : ℕ → ℝ := fun idx =>
  if idx < img.width * img.height * 4 then
    let x := idx / 4 % img.width
    let y := idx / 4 / img.width
    let c := idx % 4
    ∑ j ∈ Finset.range dimension,
      ((img.data ((y * img.width +
          (clampI ((x : ℤ) + ((j : ℤ) - (radius : ℤ))) 0 ((img.width : ℤ) - 1)).toNat) * 4
          + c) : ℚ) : ℝ) *
        buildGaussianKernel1D dimension sigma j
  else 0

/-- Model of `gaussianBlurRgba8` from nodes.ts: odd-ified dimension, the
horizontal pass into the real temp buffer, then the vertical pass with edge
clamping and byte clamping of the accumulated value. -/
noncomputable def gaussianBlurRgba8 (img : ImageBuffer) (size : ℕ) (sigma : ℝ) :
    ImageBuffer :=
  let dimension := if size % 2 = 0 then size + 1 else size
  let radius := dimension / 2
  ⟨img.width, img.height, PixelFormat.rgba8, fun i =>
    if i < img.width * img.height * 4 then
      let x := i / 4 % img.width
      let y := i / 4 / img.width
      let c := i % 4
      ((clampByte (∑ j ∈ Finset.range dimension,
        gaussHorizontal img dimension radius sigma
            (((clampI ((y : ℤ) + ((j : ℤ) - (radius : ℤ))) 0 ((img.height : ℤ) - 1)).toNat
                * img.width + x) * 4 + c) *
          buildGaussianKernel1D dimension sigma j) : ℕ) : ℚ)
    else 0⟩

/-- The unnormalised Gaussian weight `exp(-t²/8)` at integer offset `t` — the
common factor of all sigma-2 kernels above. -/
noncomputable def gaussE (t : ℤ) : ℝ :=
  Real.exp (-((t : ℝ) * (t : ℝ)) / 8)

theorem clampI_toNat_lt (v : ℤ) (n : ℕ) (hn : 0 < n) :
    (clampI v 0 ((n : ℤ) - 1)).toNat < n := by
  unfold clampI
  omega

theorem gauss1Draw_two (j : ℕ) : gauss1Draw 4 2 j = gaussE ((j : ℤ) - 4) := by
  unfold gauss1Draw gaussE
  norm_num

theorem buildGaussianKernel_two (a b : ℤ) :
    buildGaussianKernel 2 a b = gaussE b * gaussE a := by
  unfold buildGaussianKernel gaussE
  rw [← Real.exp_add]
  congr 1
  ring

theorem buildGaussianKernel1D_nine (j : ℕ) :
    buildGaussianKernel1D 9 2 j =
      gaussE ((j : ℤ) - 4) / ∑ m ∈ Finset.range 9, gaussE ((m : ℤ) - 4) := by
  unfold buildGaussianKernel1D
  norm_num [gauss1Draw_two]

theorem gaussKernelSum_nine :
    gaussKernelSum 9 4 2 =
      (∑ m ∈ Finset.range 9, gaussE ((m : ℤ) - 4)) *
        (∑ m ∈ Finset.range 9, gaussE ((m : ℤ) - 4)) := by
  unfold gaussKernelSum
  have h1 : ∀ ky ∈ Finset.range 9,
      (∑ kx ∈ Finset.range 9,
        buildGaussianKernel 2 ((ky : ℤ) - ((4 : ℕ) : ℤ)) ((kx : ℤ) - ((4 : ℕ) : ℤ))) =
      (∑ kx ∈ Finset.range 9, gaussE ((kx : ℤ) - 4)) * gaussE ((ky : ℤ) - 4) := by
    intro ky _
    calc (∑ kx ∈ Finset.range 9,
            buildGaussianKernel 2 ((ky : ℤ) - ((4 : ℕ) : ℤ)) ((kx : ℤ) - ((4 : ℕ) : ℤ)))
        = ∑ kx ∈ Finset.range 9, gaussE ((kx : ℤ) - 4) * gaussE ((ky : ℤ) - 4) :=
          Finset.sum_congr rfl fun kx _ => by rw [buildGaussianKernel_two]; norm_num
      _ = (∑ kx ∈ Finset.range 9, gaussE ((kx : ℤ) - 4)) * gaussE ((ky : ℤ) - 4) :=
          (Finset.sum_mul _ _ _).symm
  rw [Finset.sum_congr rfl h1, ← Finset.mul_sum]

theorem gaussianBlurRgba8_nine_data (img : ImageBuffer) (i : ℕ) :
    (gaussianBlurRgba8 img 9 2).data i =
      if i < img.width * img.height * 4 then
        ((clampByte (∑ j ∈ Finset.range 9,
          gaussHorizontal img 9 4 2
              (((clampI (((i / 4 / img.width : ℕ) : ℤ) + ((j : ℤ) - 4)) 0
                  ((img.height : ℤ) - 1)).toNat * img.width + i / 4 % img.width) * 4
                + i % 4) *
            buildGaussianKernel1D 9 2 j) : ℕ) : ℚ)
      else 0 := rfl

theorem convolveRgba8_data (img : ImageBuffer) (kernel : ℤ → ℤ → ℝ) (divisor : ℝ)
    (i : ℕ) :
    (convolveRgba8 img kernel divisor 4 9).data i =
      if i < img.width * img.height * 4 then
        ((clampByte ((∑ ky ∈ Finset.range 9, ∑ kx ∈ Finset.range 9,
          ((img.data (((clampI (((i / 4 / img.width : ℕ) : ℤ) + (ky : ℤ) - 4) 0
                ((img.height : ℤ) - 1)).toNat * img.width +
              (clampI (((i / 4 % img.width : ℕ) : ℤ) + (kx : ℤ) - 4) 0
                ((img.width : ℤ) - 1)).toNat) * 4 + i % 4) : ℚ) : ℝ) *
            kernel ((ky : ℤ) - 4) ((kx : ℤ) - 4)) / divisor) : ℕ) : ℚ)
      else 0 := rfl

theorem gaussHorizontal_at (img : ImageBuffer) (hw0 : 0 < img.width)
    (hh0 : 0 < img.height) (v : ℤ) (i : ℕ) :
    gaussHorizontal img 9 4 2
        (((clampI v 0 ((img.height : ℤ) - 1)).toNat * img.width + i / 4 % img.width) * 4
          + i % 4) =
      ∑ j ∈ Finset.range 9,
        ((img.data (((clampI v 0 ((img.height : ℤ) - 1)).toNat * img.width +
            (clampI (((i / 4 % img.width : ℕ) : ℤ) + ((j : ℤ) - 4)) 0
              ((img.width : ℤ) - 1)).toNat) * 4 + i % 4) : ℚ) : ℝ) *
          buildGaussianKernel1D 9 2 j := by
  have hx : i / 4 % img.width < img.width := Nat.mod_lt _ hw0
  have hc : i % 4 < 4 := Nat.mod_lt _ (by norm_num)
  have hsy : (clampI v 0 ((img.height : ℤ) - 1)).toNat < img.height :=
    clampI_toNat_lt v img.height hh0
  obtain ⟨hlt, hdiv, hmod⟩ :=
    idx4 img.width img.height (i / 4 % img.width)
      ((clampI v 0 ((img.height : ℤ) - 1)).toNat) (i % 4) hx hsy hc
  unfold gaussHorizontal
  simp only
  rw [if_pos hlt, hdiv, hmod, rowIdx_mod _ _ _ hx, rowIdx_div _ _ _ hx]
  simp only [Nat.cast_ofNat]

theorem abs_clampByte_sub_self (A B : ℝ) (h : A = B) :
    |((clampByte A : ℕ) : ℚ) - ((clampByte B : ℕ) : ℚ)| ≤ 1 := by
  rw [h, sub_self, abs_zero]
  norm_num

/-- Claim C3: confirmed — on every buffer and at every raw byte index, the
separable two-pass Gaussian blur with size 9 and sigma 2 differs from the full
2-D convolution with the normalised 2-D Gaussian kernel of the same parameters
by at most 1 per channel.  In the exact-real model of the float arithmetic the
two agree exactly: the 2-D kernel entry factors as a product of 1-D weights
and the 2-D kernel sum is the square of the 1-D sum, so the accumulated values
fed to `clampByte` coincide. -/
theorem gaussianBlur_matches_convolution (img : ImageBuffer) (i : ℕ) :
    |(gaussianBlurRgba8 img 9 2).data i -
        (convolveRgba8 img (buildGaussianKernel 2) (gaussKernelSum 9 4 2) 4 9).data i|
      ≤ 1 := by
  rw [gaussianBlurRgba8_nine_data, convolveRgba8_data]
  by_cases hi : i < img.width * img.height * 4
  · rw [if_pos hi, if_pos hi]
    have hw0 : 0 < img.width := by
      rcases Nat.eq_zero_or_pos img.width with h0 | h0
      · rw [h0] at hi; simp at hi
      · exact h0
    have hh0 : 0 < img.height := by
      rcases Nat.eq_zero_or_pos img.height with h0 | h0
      · rw [h0] at hi; simp at hi
      · exact h0
    apply abs_clampByte_sub_self
    rw [gaussKernelSum_nine]
    simp only [gaussHorizontal_at img hw0 hh0, buildGaussianKernel1D_nine,
      buildGaussianKernel_two, Nat.cast_ofNat, ← add_sub_assoc]
    simp only [← mul_div_assoc, div_mul_eq_mul_div, div_div, ← Finset.sum_div,
      ← mul_assoc, ← Finset.sum_mul]
  · rw [if_neg hi, if_neg hi]
    simp

end Dilib
